import Mathlib

/-!
Verification of the `interval_tree` crate: an associative container keyed by
closed integer intervals, implemented as a red-black binary search tree in
which every node caches the maximum `high` endpoint of its subtree
(`subtreeMax`), used to prune range queries.

The repository ships the public wrapper (`src/tree.rs`) verbatim; the core
modules it delegates to (`node.rs` with `Node`, `Range`, `insert`, `delete`,
`search`, `min_pair`, `max_pair`, `is_interval_tree`, and `iterators.rs` with
`RangePairIter`) are not part of the sources, so those operations are
modelled from the specification (sections 3, 4.2 and 4.3): insertion places a
red leaf and restores balance with the standard recolor/rotate cases, forcing
the root black; deletion locates the key (absent keys are a no-op), replaces
a two-child node by its in-order successor, splices, and runs the delete
fixup cases; every structural change recomputes the cached subtree maximum
bottom-up.  The balance bookkeeping follows the standard functional
rendering of those fixup cases (Okasaki-style balance functions).
-/

namespace ITree

/-- `Range` is a closed interval `[low, high]` over unsigned 64-bit endpoints
(modelled as `Nat`; the code performs no endpoint arithmetic, only
comparisons, so no wrap-around can occur). From `node.rs` (via the spec,
section 3). -/
structure Range where
  low : Nat
  high : Nat
deriving DecidableEq

/-- Modelled from the spec: `Range::new` (in the missing `node.rs`)
constructs an interval from two endpoints; the contract `low ≤ high` is
enforced at construction time (fail fast), and violating endpoints are
rejected, never normalized (section 4.1 and section 7(a)).  Rejection is
rendered as `none`. -/
def Range.make (low high : Nat) : Option Range :=
  if low ≤ high then some ⟨low, high⟩ else none

/-- The strict lexicographic order on `(low, high)` used for tree placement
(spec section 3). -/
def rlt (a b : Range) : Prop :=
  a.low < b.low ∨ (a.low = b.low ∧ a.high < b.high)

instance (a b : Range) : Decidable (rlt a b) :=
  inferInstanceAs (Decidable (_ ∨ _))

/-- Reflexive closure of the key order. -/
def rle (a b : Range) : Prop := rlt a b ∨ a = b

instance (a b : Range) : Decidable (rle a b) :=
  inferInstanceAs (Decidable (_ ∨ _))

/-- The overlap predicate between a stored interval `a` and the query
interval `[lo, hi]`: `a.low ≤ hi ∧ lo ≤ a.high` (spec sections 3 and 4.3). -/
def overlap (a : Range) (lo hi : Nat) : Prop :=
  a.low ≤ hi ∧ lo ≤ a.high

instance (a : Range) (lo hi : Nat) : Decidable (overlap a lo hi) :=
  inferInstanceAs (Decidable (_ ∧ _))

/-- Node colors of the red-black tree. -/
inductive Color where
  | red
  | black
deriving DecidableEq

open Color

/-- An augmented tree node (modelled from the spec, section 3): color tag,
owned children, interval key, payload, and the cached `subtreeMax` field `m`
(the maximum `high` endpoint over the node's own key and both subtrees).
`nil` is the absence of a node; the parent back-reference of the Rust node is
navigational only and needs no counterpart in a functional rendering. -/
inductive RBNode (D : Type u) where
  | nil
  | node (c : Color) (l : RBNode D) (k : Range) (v : D) (m : Nat) (r : RBNode D)

namespace RBNode

variable {D : Type u}

/-- Reads the cached `subtreeMax` of a subtree (0 for an absent child, which
is neutral since the node's own `high` always participates). -/
def smax : RBNode D → Nat
  | nil => 0
  | node _ _ _ _ m _ => m

/-- Smart constructor: every structural change in the Rust code recomputes
`subtreeMax` for the node whose children changed (spec sections 3, 4.2 and
9), so every node built here computes `m = max(key.high, left.subtreeMax,
right.subtreeMax)` from its parts. -/
def N (c : Color) (l : RBNode D) (k : Range) (v : D) (r : RBNode D) : RBNode D :=
  node c l k v (max k.high (max (smax l) (smax r))) r

/-- In-order contents of the tree as a `(key, value)` list. -/
def inorder : RBNode D → List (Range × D)
  | nil => []
  | node _ l k v _ r => inorder l ++ (k, v) :: inorder r

/-- Number of stored entries. -/
def size : RBNode D → Nat
  | nil => 0
  | node _ l _ _ _ r => size l + size r + 1

/-- Number of nodes on a longest root-to-leaf path. -/
def height : RBNode D → Nat
  | nil => 0
  | node _ l _ _ _ r => max (height l) (height r) + 1

/-- `search` (modelled from the spec, section 4.2): standard descent
comparing the target key against each node's key using the total order;
an absent key yields no result. -/
def search (x : Range) : RBNode D → Option D
  | nil => none
  | node _ a y vy _ b =>
    if rlt x y then search x a
    else if rlt y x then search x b
    else some vy

/-- `min_pair` (modelled from the spec, section 4.2): leftmost descent;
`none` on the empty tree (the wrapper turns the empty case into `None`). -/
def min_pair : RBNode D → Option (Range × D)
  | nil => none
  | node _ nil k v _ _ => some (k, v)
  | node _ (node cl ll lk lv lm lr) _ _ _ _ => min_pair (node cl ll lk lv lm lr)

/-- `max_pair` (modelled from the spec, section 4.2): rightmost descent. -/
def max_pair : RBNode D → Option (Range × D)
  | nil => none
  | node _ _ k v _ nil => some (k, v)
  | node _ _ _ _ _ (node cr rl rk rv rm rr) => max_pair (node cr rl rk rv rm rr)

/-- First insert-fixup balance function (modelled from the spec, section
4.2): repairs a red-red violation in the left child of a black grandparent by
the rotation/recolor cases (uncle black, inner and outer case). -/
def balance1 : RBNode D → Range → D → RBNode D → RBNode D
  | node red (node red a kx vx _ b) ky vy _ c, kz, vz, d
  | node red a kx vx _ (node red b ky vy _ c), kz, vz, d =>
    N red (N black a kx vx b) ky vy (N black c kz vz d)
  | a, kx, vx, b => N black a kx vx b

/-- Second insert-fixup balance function: the mirror image of `balance1`
for a red-red violation in the right child. -/
def balance2 : RBNode D → Range → D → RBNode D → RBNode D
  | a, kx, vx, node red b ky vy _ (node red c kz vz _ d)
  | a, kx, vx, node red (node red b ky vy _ c) kz vz _ d =>
    N red (N black a kx vx b) ky vy (N black c kz vz d)
  | a, kx, vx, b => N black a kx vx b

/-- Forces the root black ("the root is reached, which is then forced
black", spec section 4.2).  A color change does not affect `subtreeMax`. -/
def setBlack : RBNode D → RBNode D
  | nil => nil
  | node _ l k v m r => node black l k v m r

/-- Recolors the root red (used inside the delete fixup cases). -/
def setRed : RBNode D → RBNode D
  | nil => nil
  | node _ l k v m r => node red l k v m r

/-- The core of insertion (modelled from the spec, section 4.2): descend by
key order; an equal key overwrites the value in place; otherwise a red leaf
is created at the insertion point and the red-black insert fixup cases are
applied on the way back up.  The result may carry a red-red violation at the
root, which `insert` repairs by forcing the root black. -/
def ins (x : Range) (v : D) : RBNode D → RBNode D
  | nil => N red nil x v nil
  | node red a y vy _ b =>
    if rlt x y then N red (ins x v a) y vy b
    else if rlt y x then N red a y vy (ins x v b)
    else N red a y v b
  | node black a y vy _ b =>
    if rlt x y then balance1 (ins x v a) y vy b
    else if rlt y x then balance2 a y vy (ins x v b)
    else N black a y v b

/-- `insert` (modelled from the spec, section 4.2): run the descent/fixup
core, then force the root black. -/
def insert (x : Range) (v : D) (t : RBNode D) : RBNode D :=
  setBlack (ins x v t)

/-- Black-sibling cases of the left delete fixup (the sibling `r` is the
right subtree): black sibling (recolor it red and rebalance), red sibling
(rotate to expose a black sibling and rebalance below). -/
def balLeftB (l : RBNode D) (k : Range) (v : D) (r : RBNode D) : RBNode D :=
  match r with
  | node black a ky vy _ b => balance2 l k v (N red a ky vy b)
  | node red (node black a ky vy _ b) kz vz _ c =>
    N red (N black l k v a) ky vy (balance2 b kz vz (setRed c))
  | r => N red l k v r

/-- Delete-fixup case dispatch for a left subtree whose black height has
shrunk by one (modelled from the spec, section 4.2: red sibling, black
sibling with black children, near-red and far-red cases). -/
def balLeft (l : RBNode D) (k : Range) (v : D) (r : RBNode D) : RBNode D :=
  match l with
  | node red a kx vx _ b => N red (N black a kx vx b) k v r
  | nil => balLeftB nil k v r
  | node black a kx vx mx b => balLeftB (node black a kx vx mx b) k v r

/-- Black-sibling cases of the right delete fixup (mirror of `balLeftB`). -/
def balRightB (l : RBNode D) (k : Range) (v : D) (r : RBNode D) : RBNode D :=
  match l with
  | node black a ky vy _ b => balance1 (N red a ky vy b) k v r
  | node red a ky vy _ (node black b kz vz _ c) =>
    N red (balance1 (setRed a) ky vy b) kz vz (N black c k v r)
  | l => N red l k v r

/-- Delete-fixup case dispatch for a right subtree whose black height has
shrunk by one: the mirror image of `balLeft`. -/
def balRight (l : RBNode D) (k : Range) (v : D) (r : RBNode D) : RBNode D :=
  match r with
  | node red a kx vx _ b => N red l k v (N black a kx vx b)
  | nil => balRightB l k v nil
  | node black a kx vx mx b => balRightB l k v (node black a kx vx mx b)

/-- Removes the in-order minimum of a nonempty subtree, returning it with
the remaining (possibly deficient, locally rebalanced) subtree.  This is the
"find the in-order successor (the minimum of the right subtree)" step of
deletion (spec section 4.2). -/
def split_min : RBNode D → Option ((Range × D) × RBNode D)
  | nil => none
  | node _ nil y vy _ b => some ((y, vy), b)
  | node _ (node ca al ak av am ar) y vy _ b =>
    match split_min (node ca al ak av am ar) with
    | none => none
    | some (kv, a') =>
      some (kv, match ca with
                | black => balLeft a' y vy b
                | red => N red a' y vy b)

/-- The root color of a subtree for the purposes of the delete fixup: only
a black-rooted subtree can lose a black level (an absent child counts as
red, i.e. never deficient). -/
def colorOf : RBNode D → Color
  | nil => red
  | node red _ _ _ _ _ => red
  | node black _ _ _ _ _ => black

/-- Reassembles a node after deleting in the left subtree: if the subtree
descended into was black-rooted its black height may have shrunk, so the
left delete fixup runs; otherwise no fixup is needed. -/
def dfixL (co : Color) (a' : RBNode D) (y : Range) (vy : D) (b : RBNode D) : RBNode D :=
  match co with
  | black => balLeft a' y vy b
  | red => N red a' y vy b

/-- Reassembles a node after deleting in the right subtree (mirror image of
`dfixL`). -/
def dfixR (co : Color) (a : RBNode D) (y : Range) (vy : D) (b' : RBNode D) : RBNode D :=
  match co with
  | black => balRight a y vy b'
  | red => N red a y vy b'

/-- Removes the node that holds the matched key, given its two subtrees
(modelled from the spec, section 4.2): with zero or one child the node is
spliced out, replaced by that child; with two children it is replaced by its
in-order successor, removed from the right subtree by `split_min`, running
the right fixup when that subtree was black-rooted. -/
def delRoot : RBNode D → RBNode D → RBNode D
  | a, nil => a
  | nil, node cb bl bk bv bm br => node cb bl bk bv bm br
  | node ca al ak av am ar, node cb bl bk bv bm br =>
    match split_min (node cb bl bk bv bm br) with
    | none => nil
    | some ((ky, kv), b') => dfixR cb (node ca al ak av am ar) ky kv b'

/-- The core of deletion (modelled from the spec, section 4.2): locate the
node by key order and remove it via `delRoot`; whenever the subtree
descended into was black-rooted, its black height may have shrunk and the
corresponding fixup (`dfixL`/`dfixR`) is applied. -/
def del (x : Range) : RBNode D → RBNode D
  | nil => nil
  | node _ a y vy _ b =>
    if rlt x y then dfixL (colorOf a) (del x a) y vy b
    else if rlt y x then dfixR (colorOf b) a y vy (del x b)
    else delRoot a b

/-- `delete` (modelled from the spec, section 4.2): locate the node with the
matching key; if absent, return the tree unchanged (no-op, not an error);
otherwise remove it and force the root black after the fixup. -/
def delete (x : Range) (t : RBNode D) : RBNode D :=
  if (search x t).isSome then setBlack (del x t) else t

/-- The sequence of `(key, value)` pairs yielded by the range iterator
(modelled from the spec, section 4.3, `iterators.rs` being absent): a pruned
in-order walk that skips any subtree whose cached `subtreeMax` is below the
query's low bound and stops descending right once a node's `low` exceeds the
query's high bound, yielding the keys that overlap `[lo, hi]` in ascending
order. -/
def rangePairs (lo hi : Nat) : RBNode D → List (Range × D)
  | nil => []
  | node _ l k v m r =>
    if m < lo then []
    else
      rangePairs lo hi l ++
      (if overlap k lo hi then [(k, v)] else []) ++
      (if hi < k.low then [] else rangePairs lo hi r)

/-- Does the key satisfy an optional strict lower bound? -/
def lbB : Option Range → Range → Bool
  | none, _ => true
  | some a, k => decide (rlt a k)

/-- Does the key satisfy an optional strict upper bound? -/
def ubB : Option Range → Range → Bool
  | none, _ => true
  | some b, k => decide (rlt k b)

/-- Bounded BST-ordering check of the validator: every key lies strictly
between the bounds inherited from its ancestors. -/
def bstB : RBNode D → Option Range → Option Range → Bool
  | nil, _, _ => true
  | node _ l k _ _ r, lo, hi =>
    lbB lo k && ubB hi k && bstB l lo (some k) && bstB r (some k) hi

/-- Is the root of the subtree a red node? -/
def rootRed : RBNode D → Bool
  | nil => false
  | node red _ _ _ _ _ => true
  | node black _ _ _ _ _ => false

/-- Color check of the validator: no red node has a red child. -/
def noRR : RBNode D → Bool
  | nil => true
  | node red l _ _ _ r => !rootRed l && !rootRed r && noRR l && noRR r
  | node black l _ _ _ r => noRR l && noRR r

/-- Black-height check of the validator: `some n` when every path from the
root to a leaf boundary passes through the same number `n` of black nodes,
`none` otherwise. -/
def bhOf : RBNode D → Option Nat
  | nil => some 0
  | node c l _ _ _ r =>
    match bhOf l, bhOf r with
    | some m, some n =>
      if m = n then some (m + (match c with | black => 1 | red => 0)) else none
    | _, _ => none

/-- Augmentation check of the validator: every cached `subtreeMax` equals
its defined recursive formula. -/
def mOKb : RBNode D → Bool
  | nil => true
  | node _ l k _ m r =>
    decide (m = max k.high (max (smax l) (smax r))) && mOKb l && mOKb r

/-- `is_interval_tree` (modelled from the spec, sections 3 and 4.2): the
pure validator, checking BST ordering relative to parent bounds, the
red-black color constraints (black root, no red-red edge, equal black
heights) and `subtreeMax` correctness for every node. -/
def is_interval_tree (t : RBNode D) : Bool :=
  bstB t none none && noRR t && !rootRed t && (bhOf t).isSome && mOKb t

/-- The color of the root node (`black` for the empty tree, matching the
convention that leaf boundaries are black). -/
def rootColor : RBNode D → Color
  | nil => black
  | node c _ _ _ _ _ => c

/-- The red-black balance invariant, as an inductive predicate: `Balanced t
c n` states that `t` has root color `c`, every red node has black children,
and every path from the root to a leaf boundary passes through exactly `n`
black nodes (spec section 3, invariant 2). -/
inductive Balanced : RBNode D → Color → Nat → Prop where
  | nil : Balanced nil black 0
  | red {a b : RBNode D} {k v m n} :
      Balanced a black n → Balanced b black n → Balanced (node red a k v m b) red n
  | black {a b : RBNode D} {ca cb k v m n} :
      Balanced a ca n → Balanced b cb n → Balanced (node black a k v m b) black (n + 1)

/-- A weakening of `Balanced` that tolerates one red-red violation at the
root (when `p` holds); the transient state of the insert and delete fixups
before the parent repairs it. -/
inductive RedRed (p : Prop) : RBNode D → Nat → Prop where
  | balanced {t : RBNode D} {c n} : Balanced t c n → RedRed p t n
  | redred {a b : RBNode D} {c₁ c₂ k v m n} :
      p → Balanced a c₁ n → Balanced b c₂ n → RedRed p (node red a k v m b) n

/-- The invariant of the deletion core `del` on a subtree whose root had
color `c` and black height `n`: a black subtree shrinks by one black level
(possibly leaving a red-red root for the parent fixup), a red or absent
subtree stays balanced at the same height. -/
def DelProp (c : Color) (t : RBNode D) (n : Nat) : Prop :=
  match c with
  | black => ∃ m, n = m + 1 ∧ RedRed True t m
  | red => ∃ c', Balanced t c' n

/-- The augmentation invariant as a proposition: every cached `subtreeMax`
equals its defined recursive formula (spec section 3, invariant 3). -/
def mOK : RBNode D → Prop
  | nil => True
  | node _ l k _ m r => m = max k.high (max (smax l) (smax r)) ∧ mOK l ∧ mOK r

/-- Overwrites the value stored under key `x` in place, leaving the
structure (colors, keys, cached maxima) untouched; the reference behavior of
inserting an existing key (spec sections 3 and 4.2). -/
def setValue (x : Range) (v : D) : RBNode D → RBNode D
  | nil => nil
  | node c a y vy m b =>
    if rlt x y then node c (setValue x v a) y vy m b
    else if rlt y x then node c a y vy m (setValue x v b)
    else node c a y v m b

/-- Erases the payloads, keeping the node structure: colors, keys and cached
maxima. -/
def strip : RBNode D → RBNode Unit
  | nil => nil
  | node c l k _ m r => node c (strip l) k () m (strip r)

/-- State-passing rendering of the Rust `search` running over a borrowed
tree: the traversal returns its result together with the post-state of the
tree it walked. -/
def searchS (x : Range) : RBNode D → Option D × RBNode D
  | nil => (none, nil)
  | node c a y vy m b =>
    if rlt x y then ((searchS x a).1, node c (searchS x a).2 y vy m b)
    else if rlt y x then ((searchS x b).1, node c a y vy m (searchS x b).2)
    else (some vy, node c a y vy m b)

/-- State-passing rendering of `min_pair` over a borrowed tree. -/
def min_pairS : RBNode D → Option (Range × D) × RBNode D
  | nil => (none, nil)
  | node c nil k v m r => (some (k, v), node c nil k v m r)
  | node c (node cl ll lk lv lm lr) k v m r =>
    ((min_pairS (node cl ll lk lv lm lr)).1,
     node c (min_pairS (node cl ll lk lv lm lr)).2 k v m r)

/-- State-passing rendering of `max_pair` over a borrowed tree. -/
def max_pairS : RBNode D → Option (Range × D) × RBNode D
  | nil => (none, nil)
  | node c l k v m nil => (some (k, v), node c l k v m nil)
  | node c l k v m (node cr rl rk rv rm rr) =>
    ((max_pairS (node cr rl rk rv rm rr)).1,
     node c l k v m (max_pairS (node cr rl rk rv rm rr)).2)

end RBNode

open RBNode

/-- Strict ascending key order on an association list: the reference shape
of the tree's in-order contents. -/
def sortedP {D : Type u} (l : List (Range × D)) : Prop :=
  l.Pairwise (fun p q => rlt p.1 q.1)

/-- Reference lookup in an association list (first key match). -/
def lookupList {D : Type u} (x : Range) : List (Range × D) → Option D
  | [] => none
  | (k, v) :: rest => if k = x then some v else lookupList x rest

/-- Reference insertion into a sorted association list: places `(x, v)` at
its key position, overwriting an equal key. -/
def insList {D : Type u} (x : Range) (v : D) : List (Range × D) → List (Range × D)
  | [] => [(x, v)]
  | (k, w) :: rest =>
    if rlt x k then (x, v) :: (k, w) :: rest
    else if rlt k x then (k, w) :: insList x v rest
    else (x, v) :: rest

/-- Reference deletion from an association list (first key match). -/
def delList {D : Type u} (x : Range) : List (Range × D) → List (Range × D)
  | [] => []
  | (k, w) :: rest => if k = x then rest else (k, w) :: delList x rest

/-- An optional strict lower bound on a key. -/
def okLB (o : Option Range) (k : Range) : Prop :=
  match o with
  | none => True
  | some a => rlt a k

/-- An optional strict upper bound on a key. -/
def okUB (o : Option Range) (k : Range) : Prop :=
  match o with
  | none => True
  | some b => rlt k b

/-- The public container of `src/tree.rs`: it holds the optional owned root
(`nil` standing for Rust's `None`). -/
structure IntervalTree (D : Type u) where
  root : RBNode D

namespace IntervalTree

variable {D : Type u}

/-- `IntervalTree::new` (`src/tree.rs` lines 23-25): the empty container. -/
def new : IntervalTree D := ⟨RBNode.nil⟩

/-- `IntervalTree::insert` (`src/tree.rs` lines 39-44): delegate to the core
insertion (on an empty root the new single node becomes the black root,
which coincides with the core insertion run on the empty tree). -/
def insert (t : IntervalTree D) (k : Range) (v : D) : IntervalTree D :=
  ⟨RBNode.insert k v t.root⟩

/-- `IntervalTree::delete` (`src/tree.rs` lines 60-65): delegate to the core
deletion; deleting from the empty container does nothing. -/
def delete (t : IntervalTree D) (k : Range) : IntervalTree D :=
  ⟨RBNode.delete k t.root⟩

/-- `IntervalTree::get` (`src/tree.rs` lines 78-83). -/
def get (t : IntervalTree D) (k : Range) : Option D :=
  search k t.root

/-- `IntervalTree::get_or` (`src/tree.rs` lines 96-98). -/
def get_or (t : IntervalTree D) (k : Range) (d : D) : D :=
  (t.get k).getD d

/-- `IntervalTree::contains` (`src/tree.rs` lines 110-112). -/
def contains (t : IntervalTree D) (k : Range) : Bool :=
  (t.get k).isSome

/-- `IntervalTree::empty` (`src/tree.rs` line 124). -/
def empty (t : IntervalTree D) : Bool :=
  match t.root with
  | RBNode.nil => true
  | RBNode.node _ _ _ _ _ _ => false

/-- `IntervalTree::min` (`src/tree.rs` lines 138-143). -/
def min (t : IntervalTree D) : Option (Range × D) :=
  min_pair t.root

/-- `IntervalTree::max` (`src/tree.rs` lines 157-162). -/
def max (t : IntervalTree D) : Option (Range × D) :=
  max_pair t.root

/-- `IntervalTree::iter` (`src/tree.rs` lines 173-175): the full-range
iterator `RangePairIter::new(self, 0, 0xffff_ffff_ffff_ffff)`, rendered as
the sequence it yields. -/
def iter (t : IntervalTree D) : List (Range × D) :=
  rangePairs 0 0xffffffffffffffff t.root

/-- `IntervalTree::range` (`src/tree.rs` lines 188-190), rendered as the
sequence the iterator yields. -/
def range (t : IntervalTree D) (lo hi : Nat) : List (Range × D) :=
  rangePairs lo hi t.root

/-- `IntervalTree::test_interval_tree` (`src/tree.rs` lines 192-194). -/
def test_interval_tree (t : IntervalTree D) : Bool :=
  is_interval_tree t.root

/-- State-passing rendering of `get` (`&self` receiver). -/
def getS (t : IntervalTree D) (k : Range) : Option D × IntervalTree D :=
  ((searchS k t.root).1, ⟨(searchS k t.root).2⟩)

/-- State-passing rendering of `get_or` (`&self` receiver). -/
def get_orS (t : IntervalTree D) (k : Range) (d : D) : D × IntervalTree D :=
  ((t.getS k).1.getD d, (t.getS k).2)

/-- State-passing rendering of `contains` (`&self` receiver). -/
def containsS (t : IntervalTree D) (k : Range) : Bool × IntervalTree D :=
  ((t.getS k).1.isSome, (t.getS k).2)

/-- State-passing rendering of `empty` (`&self` receiver). -/
def emptyS (t : IntervalTree D) : Bool × IntervalTree D :=
  (t.empty, t)

/-- State-passing rendering of `min` (`&self` receiver). -/
def minS (t : IntervalTree D) : Option (Range × D) × IntervalTree D :=
  ((min_pairS t.root).1, ⟨(min_pairS t.root).2⟩)

/-- State-passing rendering of `max` (`&self` receiver). -/
def maxS (t : IntervalTree D) : Option (Range × D) × IntervalTree D :=
  ((max_pairS t.root).1, ⟨(max_pairS t.root).2⟩)

/-- State-passing rendering of iterator construction in `iter`. -/
def iterS (t : IntervalTree D) : List (Range × D) × IntervalTree D :=
  (t.iter, t)

/-- State-passing rendering of iterator construction in `range`. -/
def rangeS (t : IntervalTree D) (lo hi : Nat) : List (Range × D) × IntervalTree D :=
  (t.range lo hi, t)

end IntervalTree

/-- A single mutation of the container, as exercised by the fuzz test
(`src/tree.rs` lines 197-217). -/
inductive Op (D : Type u) where
  | insert (k : Range) (v : D)
  | delete (k : Range)

/-- Applies one mutation to the container. -/
def step {D : Type u} (t : IntervalTree D) : Op D → IntervalTree D
  | Op.insert k v => t.insert k v
  | Op.delete k => t.delete k

/-- The container obtained by running a sequence of mutations from the empty
container. -/
def run {D : Type u} (ops : List (Op D)) : IntervalTree D :=
  List.foldl step IntervalTree.new ops

/-! ### The key order is a strict total order -/

theorem rlt_trans {a b c : Range} : rlt a b → rlt b c → rlt a c := by
  simp only [rlt]; omega

theorem rlt_irrefl (a : Range) : ¬ rlt a a := by
  simp only [rlt]; omega

theorem rlt_asymm {a b : Range} : rlt a b → ¬ rlt b a := by
  simp only [rlt]; omega

theorem rlt_ne {a b : Range} (h : rlt a b) : a ≠ b :=
  fun e => rlt_irrefl b (e ▸ h)

theorem eq_of_not_rlt {a b : Range} (h₁ : ¬ rlt a b) (h₂ : ¬ rlt b a) : a = b := by
  cases a; cases b; simp only [rlt, Range.mk.injEq] at *; omega

/-! ### Reference association-list operations on sorted lists -/

theorem lookupList_notin {D : Type u} {x : Range} {l : List (Range × D)}
    (h : ∀ p ∈ l, p.1 ≠ x) : lookupList x l = none := by
  induction l with
  | nil => rfl
  | cons p rest ih =>
    obtain ⟨k, v⟩ := p
    simp only [lookupList]
    rw [if_neg (h (k, v) (List.mem_cons_self _ _))]
    exact ih fun q hq => h q (List.mem_cons_of_mem _ hq)

theorem lookupList_append_right {D : Type u} {x : Range} {l₁ l₂ : List (Range × D)}
    (h : ∀ p ∈ l₂, p.1 ≠ x) : lookupList x (l₁ ++ l₂) = lookupList x l₁ := by
  induction l₁ with
  | nil => simpa [lookupList] using lookupList_notin h
  | cons p rest ih =>
    obtain ⟨k, v⟩ := p
    simp only [List.cons_append, lookupList]
    split
    · rfl
    · exact ih

theorem lookupList_insList {D : Type u} (x : Range) (v : D) (l : List (Range × D)) :
    lookupList x (insList x v l) = some v := by
  induction l with
  | nil => simp [insList, lookupList]
  | cons p rest ih =>
    obtain ⟨k, u⟩ := p
    by_cases h1 : rlt x k
    · simp [insList, lookupList, h1]
    · by_cases h2 : rlt k x
      · simpa [insList, lookupList, h1, h2, rlt_ne h2] using ih
      · simp [insList, lookupList, h1, h2]

theorem insList_append_left {D : Type u} {x y : Range} {v w : D}
    {l₁ l₂ : List (Range × D)} (hy : rlt x y) :
    insList x v (l₁ ++ (y, w) :: l₂) = insList x v l₁ ++ (y, w) :: l₂ := by
  induction l₁ with
  | nil => simp [insList, hy]
  | cons p rest ih =>
    obtain ⟨k, u⟩ := p
    by_cases h1 : rlt x k
    · simp [insList, h1]
    · by_cases h2 : rlt k x
      · simp [insList, h1, h2, ih]
      · simp [insList, h1, h2]

theorem insList_append_right {D : Type u} {x y : Range} {v w : D}
    {l₁ l₂ : List (Range × D)} (hy : rlt y x) (h₁ : ∀ p ∈ l₁, rlt p.1 x) :
    insList x v (l₁ ++ (y, w) :: l₂) = l₁ ++ (y, w) :: insList x v l₂ := by
  induction l₁ with
  | nil => simp [insList, rlt_asymm hy, hy]
  | cons p rest ih =>
    obtain ⟨k, u⟩ := p
    have hk : rlt k x := h₁ (k, u) (List.mem_cons_self _ _)
    simp only [List.cons_append, insList, if_neg (rlt_asymm hk), if_pos hk, List.append_eq]
    rw [ih fun q hq => h₁ q (List.mem_cons_of_mem _ hq)]

theorem insList_append_eq {D : Type u} {x : Range} {v w : D}
    {l₁ l₂ : List (Range × D)} (h₁ : ∀ p ∈ l₁, rlt p.1 x) :
    insList x v (l₁ ++ (x, w) :: l₂) = l₁ ++ (x, v) :: l₂ := by
  induction l₁ with
  | nil => simp [insList, rlt_irrefl]
  | cons p rest ih =>
    obtain ⟨k, u⟩ := p
    have hk : rlt k x := h₁ (k, u) (List.mem_cons_self _ _)
    simp only [List.cons_append, insList, if_neg (rlt_asymm hk), if_pos hk, List.append_eq]
    rw [ih fun q hq => h₁ q (List.mem_cons_of_mem _ hq)]

theorem delList_notin {D : Type u} {x : Range} {l : List (Range × D)}
    (h : ∀ p ∈ l, p.1 ≠ x) : delList x l = l := by
  induction l with
  | nil => rfl
  | cons p rest ih =>
    obtain ⟨k, u⟩ := p
    simp only [delList]
    rw [if_neg (h (k, u) (List.mem_cons_self _ _))]
    rw [ih fun q hq => h q (List.mem_cons_of_mem _ hq)]

theorem delList_append_left {D : Type u} {x y : Range} {w : D}
    {l₁ l₂ : List (Range × D)} (hy : rlt x y) (hl₂ : ∀ p ∈ l₂, rlt y p.1) :
    delList x (l₁ ++ (y, w) :: l₂) = delList x l₁ ++ (y, w) :: l₂ := by
  induction l₁ with
  | nil =>
    have : delList x l₂ = l₂ :=
      delList_notin fun q hq => (rlt_ne (rlt_trans hy (hl₂ q hq))).symm
    simp [delList, (rlt_ne hy).symm, this]
  | cons p rest ih =>
    obtain ⟨k, u⟩ := p
    by_cases hk : k = x
    · simp [delList, hk]
    · simp [delList, hk, ih]

theorem delList_append_right {D : Type u} {x y : Range} {w : D}
    {l₁ l₂ : List (Range × D)} (hy : rlt y x) (h₁ : ∀ p ∈ l₁, rlt p.1 x) :
    delList x (l₁ ++ (y, w) :: l₂) = l₁ ++ (y, w) :: delList x l₂ := by
  induction l₁ with
  | nil => simp [delList, rlt_ne hy]
  | cons p rest ih =>
    obtain ⟨k, u⟩ := p
    have hk : rlt k x := h₁ (k, u) (List.mem_cons_self _ _)
    simp only [List.cons_append, delList, if_neg (rlt_ne hk), List.append_eq]
    rw [ih fun q hq => h₁ q (List.mem_cons_of_mem _ hq)]

theorem delList_append_eq {D : Type u} {x : Range} {w : D}
    {l₁ l₂ : List (Range × D)} (h₁ : ∀ p ∈ l₁, rlt p.1 x) :
    delList x (l₁ ++ (x, w) :: l₂) = l₁ ++ l₂ := by
  induction l₁ with
  | nil => simp [delList]
  | cons p rest ih =>
    obtain ⟨k, u⟩ := p
    have hk : rlt k x := h₁ (k, u) (List.mem_cons_self _ _)
    simp only [List.cons_append, delList, if_neg (rlt_ne hk), List.append_eq]
    rw [ih fun q hq => h₁ q (List.mem_cons_of_mem _ hq)]

theorem mem_insList {D : Type u} {x : Range} {v : D} {p : Range × D}
    {l : List (Range × D)} (h : p ∈ insList x v l) : p = (x, v) ∨ p ∈ l := by
  induction l with
  | nil => simpa [insList] using h
  | cons q rest ih =>
    obtain ⟨k, u⟩ := q
    by_cases h1 : rlt x k
    · simp only [insList, if_pos h1, List.mem_cons] at h
      simpa [List.mem_cons] using h
    · by_cases h2 : rlt k x
      · simp only [insList, if_neg h1, if_pos h2, List.mem_cons] at h
        rcases h with h | h
        · simp [h]
        · rcases ih h with h | h <;> simp [h]
      · simp only [insList, if_neg h1, if_neg h2, List.mem_cons] at h
        rcases h with h | h <;> simp [h]

theorem sortedP_insList {D : Type u} {x : Range} {v : D} {l : List (Range × D)}
    (h : sortedP l) : sortedP (insList x v l) := by
  induction l with
  | nil => simp [insList, sortedP]
  | cons q rest ih =>
    obtain ⟨k, u⟩ := q
    rw [sortedP, List.pairwise_cons] at h
    obtain ⟨hk, hrest⟩ := h
    by_cases h1 : rlt x k
    · rw [sortedP, insList, if_pos h1]
      refine List.Pairwise.cons ?_ (List.Pairwise.cons hk hrest)
      intro q hq
      rcases List.mem_cons.1 hq with e | hq
      · rw [e]; exact h1
      · exact rlt_trans h1 (hk q hq)
    · by_cases h2 : rlt k x
      · rw [sortedP, insList, if_neg h1, if_pos h2]
        refine List.Pairwise.cons ?_ (ih hrest)
        intro q hq
        rcases mem_insList hq with e | hq
        · rw [e]; exact h2
        · exact hk q hq
      · rw [sortedP, insList, if_neg h1, if_neg h2]
        have e : x = k := eq_of_not_rlt h1 h2
        exact List.Pairwise.cons (fun q hq => e ▸ hk q hq) hrest

theorem delList_sublist {D : Type u} (x : Range) (l : List (Range × D)) :
    List.Sublist (delList x l) l := by
  induction l with
  | nil => exact List.Sublist.refl _
  | cons q rest ih =>
    obtain ⟨k, u⟩ := q
    simp only [delList]
    split
    · exact List.sublist_cons_self _ _
    · exact List.Sublist.cons₂ _ ih

theorem sortedP_delList {D : Type u} {x : Range} {l : List (Range × D)}
    (h : sortedP l) : sortedP (delList x l) :=
  List.Pairwise.sublist (delList_sublist x l) h

theorem lookupList_delList {D : Type u} {x : Range} {l : List (Range × D)}
    (h : sortedP l) : lookupList x (delList x l) = none := by
  induction l with
  | nil => rfl
  | cons q rest ih =>
    obtain ⟨k, u⟩ := q
    rw [sortedP, List.pairwise_cons] at h
    obtain ⟨hk, hrest⟩ := h
    simp only [delList]
    split
    · next e =>
      exact lookupList_notin fun q hq => (rlt_ne (e ▸ hk q hq)).symm
    · next e =>
      simp only [lookupList, if_neg e]
      exact ih hrest

theorem lookupList_append_left_notin {D : Type u} {x : Range} {l₁ l₂ : List (Range × D)}
    (h : ∀ p ∈ l₁, p.1 ≠ x) : lookupList x (l₁ ++ l₂) = lookupList x l₂ := by
  induction l₁ with
  | nil => rfl
  | cons p rest ih =>
    obtain ⟨k, v⟩ := p
    simp only [List.cons_append, lookupList]
    rw [if_neg (h (k, v) (List.mem_cons_self _ _))]
    exact ih fun q hq => h q (List.mem_cons_of_mem _ hq)

theorem sortedP_node_parts {D : Type u} (l₁ : List (Range × D)) {l₂ : List (Range × D)}
    {y : Range} {w : D} (h : sortedP (l₁ ++ (y, w) :: l₂)) :
    sortedP l₁ ∧ sortedP l₂ ∧ (∀ p ∈ l₁, rlt p.1 y) ∧ (∀ q ∈ l₂, rlt y q.1) := by
  rw [sortedP, List.pairwise_append] at h
  obtain ⟨h₁, h₂, hx⟩ := h
  rw [List.pairwise_cons] at h₂
  exact ⟨h₁, h₂.2, fun p hp => hx p hp (y, w) (List.mem_cons_self _ _), h₂.1⟩

/-! ### In-order contents of the tree operations -/

namespace RBNode

variable {D : Type u}

theorem inorder_N (c : Color) (l : RBNode D) (k : Range) (v : D) (r : RBNode D) :
    inorder (N c l k v r) = inorder l ++ (k, v) :: inorder r := rfl

theorem inorder_setBlack (t : RBNode D) : inorder (setBlack t) = inorder t := by
  cases t <;> rfl

theorem inorder_setRed (t : RBNode D) : inorder (setRed t) = inorder t := by
  cases t <;> rfl

theorem inorder_balance1 (l : RBNode D) (k : Range) (v : D) (r : RBNode D) :
    inorder (balance1 l k v r) = inorder l ++ (k, v) :: inorder r := by
  unfold balance1
  split <;> simp [inorder, inorder_N, List.append_assoc]

theorem inorder_balance2 (l : RBNode D) (k : Range) (v : D) (r : RBNode D) :
    inorder (balance2 l k v r) = inorder l ++ (k, v) :: inorder r := by
  unfold balance2
  split <;> simp [inorder, inorder_N, List.append_assoc]

theorem inorder_balLeftB (l : RBNode D) (k : Range) (v : D) (r : RBNode D) :
    inorder (balLeftB l k v r) = inorder l ++ (k, v) :: inorder r := by
  unfold balLeftB
  split <;>
    simp [inorder, inorder_N, inorder_balance2, inorder_setRed, List.append_assoc]

theorem inorder_balLeft (l : RBNode D) (k : Range) (v : D) (r : RBNode D) :
    inorder (balLeft l k v r) = inorder l ++ (k, v) :: inorder r := by
  unfold balLeft
  split <;> simp [inorder, inorder_N, inorder_balLeftB, List.append_assoc]

theorem inorder_balRightB (l : RBNode D) (k : Range) (v : D) (r : RBNode D) :
    inorder (balRightB l k v r) = inorder l ++ (k, v) :: inorder r := by
  unfold balRightB
  split <;>
    simp [inorder, inorder_N, inorder_balance1, inorder_setRed, List.append_assoc]

theorem inorder_balRight (l : RBNode D) (k : Range) (v : D) (r : RBNode D) :
    inorder (balRight l k v r) = inorder l ++ (k, v) :: inorder r := by
  unfold balRight
  split <;> simp [inorder, inorder_N, inorder_balRightB, List.append_assoc]

theorem split_min_isSome (c : Color) (a : RBNode D) (y : Range) (vy : D) (m : Nat)
    (b : RBNode D) : (split_min (node c a y vy m b)).isSome = true := by
  induction a generalizing c y vy m b with
  | nil => simp [split_min]
  | node ca al ak av am ar ihl ihr =>
    have := ihl ca ak av am ar
    rw [split_min]
    rcases hsm : split_min (node ca al ak av am ar) with _ | p
    · rw [hsm] at this; simp at this
    · simp

theorem inorder_split_min {t t' : RBNode D} {kv : Range × D}
    (h : split_min t = some (kv, t')) : inorder t = kv :: inorder t' := by
  induction t generalizing t' kv with
  | nil => simp [split_min] at h
  | node c a y vy m b ihl ihr =>
    cases a with
    | nil =>
      rw [split_min] at h
      cases h
      simp [inorder]
    | node ca al ak av am ar =>
      rw [split_min] at h
      rcases hsm : split_min (node ca al ak av am ar) with _ | ⟨kv1, a1⟩
      · rw [hsm] at h; exact absurd h (by simp)
      · rw [hsm] at h
        have e1 : inorder (node c (node ca al ak av am ar) y vy m b)
            = inorder (node ca al ak av am ar) ++ (y, vy) :: inorder b := rfl
        cases ca
        · cases h
          rw [e1, ihl hsm, List.cons_append]
          simp [inorder_N]
        · cases h
          rw [e1, ihl hsm, List.cons_append]
          simp [inorder_balLeft]

theorem inorder_ins {t : RBNode D} (x : Range) (v : D) (h : sortedP (inorder t)) :
    inorder (ins x v t) = insList x v (inorder t) := by
  induction t with
  | nil => simp [ins, insList, inorder, inorder_N]
  | node c a y vy m b ihl ihr =>
    obtain ⟨ha, hb, hay, hyb⟩ := sortedP_node_parts (inorder a) h
    cases c
    · by_cases h1 : rlt x y
      · rw [inorder, insList_append_left h1, ins, if_pos h1, inorder_N, ihl ha]
      · by_cases h2 : rlt y x
        · rw [inorder, insList_append_right h2 fun p hp => rlt_trans (hay p hp) h2,
            ins, if_neg h1, if_pos h2, inorder_N, ihr hb]
        · have e : x = y := eq_of_not_rlt h1 h2
          subst e
          rw [inorder, insList_append_eq hay, ins, if_neg h1, if_neg h2, inorder_N]
    · by_cases h1 : rlt x y
      · rw [inorder, insList_append_left h1, ins, if_pos h1, inorder_balance1, ihl ha]
      · by_cases h2 : rlt y x
        · rw [inorder, insList_append_right h2 fun p hp => rlt_trans (hay p hp) h2,
            ins, if_neg h1, if_pos h2, inorder_balance2, ihr hb]
        · have e : x = y := eq_of_not_rlt h1 h2
          subst e
          rw [inorder, insList_append_eq hay, ins, if_neg h1, if_neg h2, inorder_N]

theorem inorder_insert {t : RBNode D} (x : Range) (v : D) (h : sortedP (inorder t)) :
    inorder (insert x v t) = insList x v (inorder t) := by
  rw [insert, inorder_setBlack, inorder_ins x v h]

theorem inorder_dfixL (co : Color) (a' : RBNode D) (y : Range) (vy : D) (b : RBNode D) :
    inorder (dfixL co a' y vy b) = inorder a' ++ (y, vy) :: inorder b := by
  cases co <;> simp [dfixL, inorder_balLeft, inorder_N]

theorem inorder_dfixR (co : Color) (a : RBNode D) (y : Range) (vy : D) (b' : RBNode D) :
    inorder (dfixR co a y vy b') = inorder a ++ (y, vy) :: inorder b' := by
  cases co <;> simp [dfixR, inorder_balRight, inorder_N]

theorem inorder_delRoot (a b : RBNode D) :
    inorder (delRoot a b) = inorder a ++ inorder b := by
  cases b with
  | nil => simp [delRoot, inorder]
  | node cb bl bk bv bm br =>
    cases a with
    | nil => simp [delRoot, inorder]
    | node ca al ak av am ar =>
      rcases hsm : split_min (node cb bl bk bv bm br) with _ | ⟨⟨ky, kv⟩, b1⟩
      · have := split_min_isSome cb bl bk bv bm br
        rw [hsm] at this; simp at this
      · have hib := inorder_split_min hsm
        rw [delRoot, hsm, inorder_dfixR, hib]

theorem inorder_del {t : RBNode D} (x : Range) (h : sortedP (inorder t)) :
    inorder (del x t) = delList x (inorder t) := by
  induction t with
  | nil => rfl
  | node c a y vy m b ihl ihr =>
    obtain ⟨ha, hb, hay, hyb⟩ := sortedP_node_parts (inorder a) h
    by_cases h1 : rlt x y
    · rw [inorder, delList_append_left h1 hyb, del, if_pos h1, inorder_dfixL, ihl ha]
    · by_cases h2 : rlt y x
      · rw [inorder, delList_append_right h2 fun p hp => rlt_trans (hay p hp) h2,
          del, if_neg h1, if_pos h2, inorder_dfixR, ihr hb]
      · have e : x = y := eq_of_not_rlt h1 h2
        subst e
        rw [inorder, delList_append_eq hay, del, if_neg h1, if_neg h2, inorder_delRoot]

theorem inorder_delete {t : RBNode D} (x : Range) (h : sortedP (inorder t)) :
    inorder (delete x t) = if (search x t).isSome then delList x (inorder t)
      else inorder t := by
  rw [delete]
  split
  · rw [inorder_setBlack, inorder_del x h]
  · rfl

theorem search_eq_lookup {t : RBNode D} (x : Range) (h : sortedP (inorder t)) :
    search x t = lookupList x (inorder t) := by
  induction t with
  | nil => rfl
  | node c a y vy m b ihl ihr =>
    obtain ⟨ha, hb, hay, hyb⟩ := sortedP_node_parts (inorder a) h
    by_cases h1 : rlt x y
    · rw [search, if_pos h1, inorder, lookupList_append_right, ihl ha]
      intro p hp
      rcases List.mem_cons.1 hp with e | hp
      · rw [e]; exact (rlt_ne h1).symm
      · exact (rlt_ne (rlt_trans h1 (hyb p hp))).symm
    · by_cases h2 : rlt y x
      · rw [search, if_neg h1, if_pos h2, inorder,
          lookupList_append_left_notin fun p hp => rlt_ne (rlt_trans (hay p hp) h2)]
        rw [lookupList, if_neg (rlt_ne h2), ihr hb]
      · have e : x = y := eq_of_not_rlt h1 h2
        subst e
        rw [search, if_neg h1, if_neg h2, inorder,
          lookupList_append_left_notin fun p hp => rlt_ne (hay p hp)]
        rw [lookupList, if_pos rfl]

/-! ### Balance invariant machinery -/

theorem bal_nil_inv {c : Color} {n : Nat} (h : Balanced (nil : RBNode D) c n) :
    c = black ∧ n = 0 := by
  cases h; exact ⟨rfl, rfl⟩

theorem bal_red_inv {a b : RBNode D} {k : Range} {v : D} {m n : Nat} {c : Color}
    (h : Balanced (node red a k v m b) c n) :
    c = red ∧ Balanced a black n ∧ Balanced b black n := by
  cases h with
  | red h1 h2 => exact ⟨rfl, h1, h2⟩

theorem bal_black_inv {a b : RBNode D} {k : Range} {v : D} {m n : Nat} {c : Color}
    (h : Balanced (node black a k v m b) c n) :
    c = black ∧ ∃ ca cb n', n = n' + 1 ∧ Balanced a ca n' ∧ Balanced b cb n' := by
  cases h with
  | black h1 h2 => exact ⟨rfl, _, _, _, rfl, h1, h2⟩

theorem redred_of_false {p : Prop} {t : RBNode D} {n : Nat} (hp : ¬ p)
    (h : RedRed p t n) : ∃ c, Balanced t c n := by
  cases h with
  | balanced hb => exact ⟨_, hb⟩
  | redred h1 _ _ => exact absurd h1 hp

theorem redred_imp {p q : Prop} {t : RBNode D} {n : Nat} (hpq : p → q)
    (h : RedRed p t n) : RedRed q t n := by
  cases h with
  | balanced hb => exact .balanced hb
  | redred h1 h2 h3 => exact .redred (hpq h1) h2 h3

theorem redred_of_red {p : Prop} {a b : RBNode D} {k : Range} {v : D} {m n : Nat}
    (h : RedRed p (node red a k v m b) n) :
    ∃ c₁ c₂, Balanced a c₁ n ∧ Balanced b c₂ n := by
  cases h with
  | balanced hb =>
    obtain ⟨_, h1, h2⟩ := bal_red_inv hb
    exact ⟨_, _, h1, h2⟩
  | redred _ h1 h2 => exact ⟨_, _, h1, h2⟩

theorem setBlack_balanced {t : RBNode D} {c : Color} {n : Nat} (h : Balanced t c n) :
    ∃ n', Balanced (setBlack t) black n' := by
  cases h with
  | nil => exact ⟨0, .nil⟩
  | red h1 h2 => exact ⟨_, .black h1 h2⟩
  | black h1 h2 => exact ⟨_, .black h1 h2⟩

theorem redred_setBlack {p : Prop} {t : RBNode D} {n : Nat} (h : RedRed p t n) :
    ∃ n', Balanced (setBlack t) black n' := by
  cases h with
  | balanced hb => exact setBlack_balanced hb
  | redred _ h1 h2 => exact ⟨_, .black h1 h2⟩

theorem rootRed_of_black {t : RBNode D} {n : Nat} (h : Balanced t black n) :
    rootRed t = false := by
  cases h <;> rfl

theorem balance1_redred {l : RBNode D} {k : Range} {v : D} {r : RBNode D}
    {p : Prop} {n : Nat} {c : Color} (hl : RedRed p l n) (hr : Balanced r c n) :
    ∃ c', Balanced (balance1 l k v r) c' (n + 1) := by
  cases l with
  | nil =>
    cases hl with
    | balanced hb => exact ⟨_, .black hb hr⟩
  | node c0 a0 k0 v0 m0 b0 =>
    cases c0 with
    | black =>
      cases hl with
      | balanced hb => exact ⟨_, .black hb hr⟩
    | red =>
      obtain ⟨c₁, c₂, ha, hb⟩ := redred_of_red hl
      cases a0 with
      | node ca a1 k1 v1 m1 b1 =>
        cases ca with
        | red =>
          obtain ⟨_, ha1, ha2⟩ := bal_red_inv ha
          cases b0 with
          | nil => exact ⟨_, .red (.black ha1 ha2) (.black hb hr)⟩
          | node cb b1 k2 v2 m2 b2 =>
            cases cb <;> exact ⟨_, .red (.black ha1 ha2) (.black hb hr)⟩
        | black =>
          obtain ⟨e₁, _⟩ := bal_black_inv ha
          subst e₁
          cases b0 with
          | node cb b1 k2 v2 m2 b2 =>
            cases cb with
            | red =>
              obtain ⟨_, hb1, hb2⟩ := bal_red_inv hb
              exact ⟨_, .red (.black ha hb1) (.black hb2 hr)⟩
            | black =>
              obtain ⟨e₂, _⟩ := bal_black_inv hb
              subst e₂
              exact ⟨_, .black (.red ha hb) hr⟩
          | nil =>
            obtain ⟨e₂, _⟩ := bal_nil_inv hb
            subst e₂
            exact ⟨_, .black (.red ha hb) hr⟩
      | nil =>
        obtain ⟨e₁, _⟩ := bal_nil_inv ha
        subst e₁
        cases b0 with
        | node cb b1 k2 v2 m2 b2 =>
          cases cb with
          | red =>
            obtain ⟨_, hb1, hb2⟩ := bal_red_inv hb
            exact ⟨_, .red (.black ha hb1) (.black hb2 hr)⟩
          | black =>
            obtain ⟨e₂, _⟩ := bal_black_inv hb
            subst e₂
            exact ⟨_, .black (.red ha hb) hr⟩
        | nil =>
          obtain ⟨e₂, _⟩ := bal_nil_inv hb
          subst e₂
          exact ⟨_, .black (.red ha hb) hr⟩

theorem balance2_redred {l : RBNode D} {k : Range} {v : D} {r : RBNode D}
    {p : Prop} {n : Nat} {c : Color} (hl : Balanced l c n) (hr : RedRed p r n) :
    ∃ c', Balanced (balance2 l k v r) c' (n + 1) := by
  cases r with
  | nil =>
    cases hr with
    | balanced hb => exact ⟨_, .black hl hb⟩
  | node c0 a0 k0 v0 m0 b0 =>
    cases c0 with
    | black =>
      cases hr with
      | balanced hb => exact ⟨_, .black hl hb⟩
    | red =>
      obtain ⟨c₁, c₂, ha, hb⟩ := redred_of_red hr
      cases b0 with
      | node cb b1 k2 v2 m2 b2 =>
        cases cb with
        | red =>
          obtain ⟨_, hb1, hb2⟩ := bal_red_inv hb
          cases a0 with
          | nil => exact ⟨_, .red (.black hl ha) (.black hb1 hb2)⟩
          | node ca a1 k1 v1 m1 b1 =>
            cases ca <;> exact ⟨_, .red (.black hl ha) (.black hb1 hb2)⟩
        | black =>
          obtain ⟨e₂, _⟩ := bal_black_inv hb
          subst e₂
          cases a0 with
          | node ca a1 k1 v1 m1 b1 =>
            cases ca with
            | red =>
              obtain ⟨_, ha1, ha2⟩ := bal_red_inv ha
              exact ⟨_, .red (.black hl ha1) (.black ha2 hb)⟩
            | black =>
              obtain ⟨e₁, _⟩ := bal_black_inv ha
              subst e₁
              exact ⟨_, .black hl (.red ha hb)⟩
          | nil =>
            obtain ⟨e₁, _⟩ := bal_nil_inv ha
            subst e₁
            exact ⟨_, .black hl (.red ha hb)⟩
      | nil =>
        obtain ⟨e₂, _⟩ := bal_nil_inv hb
        subst e₂
        cases a0 with
        | node ca a1 k1 v1 m1 b1 =>
          cases ca with
          | red =>
            obtain ⟨_, ha1, ha2⟩ := bal_red_inv ha
            exact ⟨_, .red (.black hl ha1) (.black ha2 hb)⟩
          | black =>
            obtain ⟨e₁, _⟩ := bal_black_inv ha
            subst e₁
            exact ⟨_, .black hl (.red ha hb)⟩
        | nil =>
          obtain ⟨e₁, _⟩ := bal_nil_inv ha
          subst e₁
          exact ⟨_, .black hl (.red ha hb)⟩

theorem balance1_eq {l : RBNode D} {k : Range} {v : D} {r : RBNode D} {c : Color}
    {n : Nat} (hl : Balanced l c n) : balance1 l k v r = N black l k v r := by
  cases l with
  | nil => rfl
  | node c0 a0 k0 v0 m0 b0 =>
    cases c0 with
    | black => rfl
    | red =>
      obtain ⟨_, ha, hb⟩ := bal_red_inv hl
      cases a0 with
      | nil =>
        cases b0 with
        | nil => rfl
        | node cb b1 k2 v2 m2 b2 => cases cb with
          | red => exact absurd (bal_red_inv hb).1 (by simp)
          | black => rfl
      | node ca a1 k1 v1 m1 b1 =>
        cases ca with
        | red => exact absurd (bal_red_inv ha).1 (by simp)
        | black =>
          cases b0 with
          | nil => rfl
          | node cb b1 k2 v2 m2 b2 => cases cb with
            | red => exact absurd (bal_red_inv hb).1 (by simp)
            | black => rfl

theorem ins_redred (x : Range) (v : D) {t : RBNode D} {c : Color} {n : Nat}
    (h : Balanced t c n) : RedRed (rootRed t = true) (ins x v t) n := by
  induction h with
  | nil => exact .balanced (.red .nil .nil)
  | @red a0 b0 k0 v0 m0 n0 ha hb iha ihb =>
    rw [ins]
    by_cases h1 : rlt x k0
    · rw [if_pos h1]
      obtain ⟨ca', hia⟩ := redred_of_false (by simp [rootRed_of_black ha]) iha
      cases ca' with
      | black => exact .balanced (.red hia hb)
      | red => exact .redred rfl hia hb
    · by_cases h2 : rlt k0 x
      · rw [if_neg h1, if_pos h2]
        obtain ⟨cb', hib⟩ := redred_of_false (by simp [rootRed_of_black hb]) ihb
        cases cb' with
        | black => exact .balanced (.red ha hib)
        | red => exact .redred rfl ha hib
      · rw [if_neg h1, if_neg h2]
        exact .balanced (.red ha hb)
  | @black a0 b0 ca cb k0 v0 m0 n0 ha hb iha ihb =>
    rw [ins]
    by_cases h1 : rlt x k0
    · rw [if_pos h1]
      obtain ⟨c', h2⟩ := balance1_redred iha hb
      exact .balanced h2
    · by_cases h2 : rlt k0 x
      · rw [if_neg h1, if_pos h2]
        obtain ⟨c', h3⟩ := balance2_redred ha ihb
        exact .balanced h3
      · rw [if_neg h1, if_neg h2]
        exact .balanced (.black ha hb)

theorem insert_balanced (x : Range) (v : D) {t : RBNode D} {c : Color} {n : Nat}
    (h : Balanced t c n) : ∃ n', Balanced (insert x v t) black n' := by
  rw [insert]
  exact redred_setBlack (ins_redred x v h)

theorem balLeftB_redred {l : RBNode D} {k : Range} {v : D} {r : RBNode D}
    {n : Nat} {cl cr : Color} (hl : Balanced l cl n) (hr : Balanced r cr (n + 1)) :
    RedRed (cr = red) (balLeftB l k v r) (n + 1) := by
  cases r with
  | nil => exact absurd (bal_nil_inv hr).2 (Nat.succ_ne_zero n)
  | node c0 a0 k0 v0 m0 b0 =>
    cases c0 with
    | black =>
      obtain ⟨e, ca, cb, n', e2, ha, hb⟩ := bal_black_inv hr
      subst e
      have e5 : n' = n := by omega
      rw [e5] at ha hb
      obtain ⟨c', h3⟩ := balance2_redred hl (.redred trivial ha hb)
      exact .balanced h3
    | red =>
      obtain ⟨e, hra, hrb⟩ := bal_red_inv hr
      subst e
      cases a0 with
      | nil => exact absurd (bal_nil_inv hra).2 (Nat.succ_ne_zero n)
      | node ca2 a2 k2 v2 m2 b2 =>
        cases ca2 with
        | red => exact absurd (bal_red_inv hra).1 (by simp)
        | black =>
          obtain ⟨e3, ca, cb, n', e2, ha2, hb2⟩ := bal_black_inv hra
          have e5 : n' = n := by omega
          rw [e5] at ha2 hb2
          have hsr : RedRed True (setRed b0) n := by
            cases b0 with
            | nil => exact absurd (bal_nil_inv hrb).2 (Nat.succ_ne_zero n)
            | node cb0 x1 x2 x3 x4 x5 =>
              cases cb0 with
              | red => exact absurd (bal_red_inv hrb).1 (by simp)
              | black =>
                obtain ⟨_, c1, c2, n2, e4, h1, h2⟩ := bal_black_inv hrb
                have e6 : n2 = n := by omega
                rw [e6] at h1 h2
                exact .redred trivial h1 h2
          obtain ⟨c', h4⟩ := balance2_redred hb2 hsr
          exact .redred rfl (.black hl ha2) h4

theorem balLeft_redred {l : RBNode D} {k : Range} {v : D} {r : RBNode D}
    {n : Nat} {cr : Color} (hl : RedRed True l n) (hr : Balanced r cr (n + 1)) :
    RedRed (cr = red) (balLeft l k v r) (n + 1) := by
  cases l with
  | nil =>
    cases hl with
    | balanced h2 => exact balLeftB_redred h2 hr
  | node c0 a0 k0 v0 m0 b0 =>
    cases c0 with
    | red =>
      obtain ⟨c₁, c₂, ha, hb⟩ := redred_of_red hl
      cases cr with
      | red => exact .redred rfl (.black ha hb) hr
      | black => exact .balanced (.red (.black ha hb) hr)
    | black =>
      cases hl with
      | balanced h2 => exact balLeftB_redred h2 hr

theorem balRightB_redred {l : RBNode D} {k : Range} {v : D} {r : RBNode D}
    {n : Nat} {cl cr : Color} (hl : Balanced l cl (n + 1)) (hr : Balanced r cr n) :
    RedRed (cl = red) (balRightB l k v r) (n + 1) := by
  cases l with
  | nil => exact absurd (bal_nil_inv hl).2 (Nat.succ_ne_zero n)
  | node c0 a0 k0 v0 m0 b0 =>
    cases c0 with
    | black =>
      obtain ⟨e, ca, cb, n', e2, ha, hb⟩ := bal_black_inv hl
      subst e
      have e5 : n' = n := by omega
      rw [e5] at ha hb
      obtain ⟨c', h3⟩ := balance1_redred (.redred trivial ha hb) hr
      exact .balanced h3
    | red =>
      obtain ⟨e, hla, hlb⟩ := bal_red_inv hl
      subst e
      cases b0 with
      | nil => exact absurd (bal_nil_inv hlb).2 (Nat.succ_ne_zero n)
      | node cb2 b2 k2 v2 m2 c2 =>
        cases cb2 with
        | red => exact absurd (bal_red_inv hlb).1 (by simp)
        | black =>
          obtain ⟨e3, ca, cb, n', e2, hb2, hc2⟩ := bal_black_inv hlb
          have e5 : n' = n := by omega
          rw [e5] at hb2 hc2
          have hsr : RedRed True (setRed a0) n := by
            cases a0 with
            | nil => exact absurd (bal_nil_inv hla).2 (Nat.succ_ne_zero n)
            | node ca0 x1 x2 x3 x4 x5 =>
              cases ca0 with
              | red => exact absurd (bal_red_inv hla).1 (by simp)
              | black =>
                obtain ⟨_, c1, c2, n2, e4, h1, h2⟩ := bal_black_inv hla
                have e6 : n2 = n := by omega
                rw [e6] at h1 h2
                exact .redred trivial h1 h2
          obtain ⟨c', h4⟩ := balance1_redred hsr hb2
          exact .redred rfl h4 (.black hc2 hr)

theorem balRight_redred {l : RBNode D} {k : Range} {v : D} {r : RBNode D}
    {n : Nat} {cl : Color} (hl : Balanced l cl (n + 1)) (hr : RedRed True r n) :
    RedRed (cl = red) (balRight l k v r) (n + 1) := by
  cases r with
  | nil =>
    cases hr with
    | balanced h2 => exact balRightB_redred hl h2
  | node c0 a0 k0 v0 m0 b0 =>
    cases c0 with
    | red =>
      obtain ⟨c₁, c₂, ha, hb⟩ := redred_of_red hr
      cases cl with
      | red => exact .redred rfl hl (.black ha hb)
      | black => exact .balanced (.red hl (.black ha hb))
    | black =>
      cases hr with
      | balanced h2 => exact balRightB_redred hl h2

theorem split_min_delProp {t : RBNode D} {c : Color} {n : Nat} (h : Balanced t c n) :
    ∀ {kv : Range × D} {t' : RBNode D}, split_min t = some (kv, t') → DelProp c t' n := by
  induction h with
  | nil => intro kv t' hsm; simp [split_min] at hsm
  | @red a0 b0 k0 v0 m0 n0 ha hb iha ihb =>
    intro kv t' hsm
    cases a0 with
    | nil =>
      rw [split_min] at hsm
      cases hsm
      exact ⟨_, hb⟩
    | node ca a1 k1 v1 m1 b1 =>
      rw [split_min] at hsm
      rcases hsm2 : split_min (node ca a1 k1 v1 m1 b1) with _ | ⟨kv2, a2⟩
      · rw [hsm2] at hsm; exact absurd hsm (by simp)
      · rw [hsm2] at hsm
        cases ca with
        | red => exact absurd (bal_red_inv ha).1 (by simp)
        | black =>
          cases hsm
          obtain ⟨m1, e1, h2⟩ := iha hsm2
          subst e1
          obtain ⟨c', h3⟩ := redred_of_false (by simp) (balLeft_redred h2 hb)
          exact ⟨_, h3⟩
  | @black a0 b0 ca cb k0 v0 m0 n0 ha hb iha ihb =>
    intro kv t' hsm
    cases a0 with
    | nil =>
      rw [split_min] at hsm
      cases hsm
      exact ⟨n0, rfl, .balanced hb⟩
    | node ca2 a1 k1 v1 m1 b1 =>
      rw [split_min] at hsm
      rcases hsm2 : split_min (node ca2 a1 k1 v1 m1 b1) with _ | ⟨kv2, a2⟩
      · rw [hsm2] at hsm; exact absurd hsm (by simp)
      · rw [hsm2] at hsm
        cases ca2 with
        | black =>
          cases hsm
          have e0 : ca = black := (bal_black_inv ha).1
          subst e0
          obtain ⟨m1, e1, h2⟩ := iha hsm2
          subst e1
          exact ⟨_, rfl, redred_imp (fun _ => trivial) (balLeft_redred h2 hb)⟩
        | red =>
          cases hsm
          have e0 : ca = red := (bal_red_inv ha).1
          subst e0
          obtain ⟨c', h2⟩ := iha hsm2
          exact ⟨n0, rfl, .redred trivial h2 hb⟩

theorem delRoot_redred {a b : RBNode D} {ca cb : Color} {n : Nat}
    (ha : Balanced a ca n) (hb : Balanced b cb n) : RedRed True (delRoot a b) n := by
  cases b with
  | nil => cases a with
    | nil => exact .balanced ha
    | node x1 x2 x3 x4 x5 x6 => exact .balanced ha
  | node cb2 bl bk bv bm br =>
    cases a with
    | nil => exact .balanced hb
    | node ca2 al ak av am ar =>
      rcases hsm : split_min (node cb2 bl bk bv bm br) with _ | ⟨⟨ky, kv⟩, b1⟩
      · have h2 := split_min_isSome cb2 bl bk bv bm br
        rw [hsm] at h2; simp at h2
      · rw [delRoot, hsm]
        cases cb2 with
        | black =>
          have e0 : cb = black := (bal_black_inv hb).1
          subst e0
          obtain ⟨m1, e1, h2⟩ := split_min_delProp hb hsm
          subst e1
          exact redred_imp (fun _ => trivial) (balRight_redred ha h2)
        | red =>
          have e0 : cb = red := (bal_red_inv hb).1
          subst e0
          obtain ⟨c', h2⟩ := split_min_delProp hb hsm
          exact .redred trivial ha h2

theorem delRoot_balanced {a b : RBNode D} {n : Nat}
    (ha : Balanced a black n) (hb : Balanced b black n) :
    ∃ c', Balanced (delRoot a b) c' n := by
  cases b with
  | nil => cases a with
    | nil => exact ⟨_, ha⟩
    | node x1 x2 x3 x4 x5 x6 => exact ⟨_, ha⟩
  | node cb2 bl bk bv bm br =>
    cases a with
    | nil => exact ⟨_, hb⟩
    | node ca2 al ak av am ar =>
      cases ca2 with
      | red => exact absurd (bal_red_inv ha).1 (by simp)
      | black =>
        cases cb2 with
        | red => exact absurd (bal_red_inv hb).1 (by simp)
        | black =>
          rcases hsm : split_min (node black bl bk bv bm br) with _ | ⟨⟨ky, kv⟩, b1⟩
          · have h2 := split_min_isSome black bl bk bv bm br
            rw [hsm] at h2; simp at h2
          · rw [delRoot, hsm]
            obtain ⟨m1, e1, h2⟩ := split_min_delProp hb hsm
            subst e1
            exact redred_of_false (by simp) (balRight_redred ha h2)

theorem del_delProp (x : Range) {t : RBNode D} {c : Color} {n : Nat}
    (h : Balanced t c n) : DelProp (colorOf t) (del x t) n := by
  induction h with
  | nil => exact ⟨_, .nil⟩
  | @red a0 b0 k0 v0 m0 n0 ha hb iha ihb =>
    rw [del]
    by_cases h1 : rlt x k0
    · rw [if_pos h1]
      cases a0 with
      | nil =>
        obtain ⟨_, e⟩ := bal_nil_inv ha
        subst e
        exact ⟨_, .red .nil hb⟩
      | node ca2 a1 k1 v1 m1 b1 =>
        cases ca2 with
        | red => exact absurd (bal_red_inv ha).1 (by simp)
        | black =>
          obtain ⟨m1, e1, h2⟩ := iha
          subst e1
          exact redred_of_false (by simp) (balLeft_redred h2 hb)
    · by_cases h2 : rlt k0 x
      · rw [if_neg h1, if_pos h2]
        cases b0 with
        | nil =>
          obtain ⟨_, e⟩ := bal_nil_inv hb
          subst e
          exact ⟨_, .red ha .nil⟩
        | node cb2 b1 k1 v1 m1 b2 =>
          cases cb2 with
          | red => exact absurd (bal_red_inv hb).1 (by simp)
          | black =>
            obtain ⟨m1, e1, h3⟩ := ihb
            subst e1
            exact redred_of_false (by simp) (balRight_redred ha h3)
      · rw [if_neg h1, if_neg h2]
        exact delRoot_balanced ha hb
  | @black a0 b0 ca cb k0 v0 m0 n0 ha hb iha ihb =>
    refine ⟨n0, rfl, ?_⟩
    rw [del]
    by_cases h1 : rlt x k0
    · rw [if_pos h1]
      cases a0 with
      | nil =>
        obtain ⟨_, e⟩ := bal_nil_inv ha
        subst e
        exact .redred trivial .nil hb
      | node ca2 a1 k1 v1 m1 b1 =>
        cases ca2 with
        | red =>
          obtain ⟨c', h3⟩ := iha
          exact .redred trivial h3 hb
        | black =>
          obtain ⟨m1, e1, h3⟩ := iha
          subst e1
          exact redred_imp (fun _ => trivial) (balLeft_redred h3 hb)
    · by_cases h2 : rlt k0 x
      · rw [if_neg h1, if_pos h2]
        cases b0 with
        | nil =>
          obtain ⟨_, e⟩ := bal_nil_inv hb
          subst e
          exact .redred trivial ha .nil
        | node cb2 b1 k1 v1 m1 b2 =>
          cases cb2 with
          | red =>
            obtain ⟨c', h3⟩ := ihb
            exact .redred trivial ha h3
          | black =>
            obtain ⟨m1, e1, h3⟩ := ihb
            subst e1
            exact redred_imp (fun _ => trivial) (balRight_redred ha h3)
      · rw [if_neg h1, if_neg h2]
        exact delRoot_redred ha hb

theorem delete_balanced (x : Range) {t : RBNode D} {n : Nat} (h : Balanced t black n) :
    ∃ n', Balanced (delete x t) black n' := by
  rw [delete]
  split
  · have h2 := del_delProp x h
    cases hc : colorOf t with
    | red =>
      rw [hc] at h2
      obtain ⟨c', h3⟩ := h2
      exact setBlack_balanced h3
    | black =>
      rw [hc] at h2
      obtain ⟨m, e, h3⟩ := h2
      exact redred_setBlack h3
  · exact ⟨n, h⟩

theorem balance2_eq {l : RBNode D} {k : Range} {v : D} {r : RBNode D} {c : Color}
    {n : Nat} (hr : Balanced r c n) : balance2 l k v r = N black l k v r := by
  cases r with
  | nil => rfl
  | node c0 a0 k0 v0 m0 b0 =>
    cases c0 with
    | black => rfl
    | red =>
      obtain ⟨_, ha, hb⟩ := bal_red_inv hr
      cases b0 with
      | nil =>
        cases a0 with
        | nil => rfl
        | node ca a1 k1 v1 m1 b1 => cases ca with
          | red => exact absurd (bal_red_inv ha).1 (by simp)
          | black => rfl
      | node cb b1 k2 v2 m2 b2 =>
        cases cb with
        | red => exact absurd (bal_red_inv hb).1 (by simp)
        | black =>
          cases a0 with
          | nil => rfl
          | node ca a1 k1 v1 m1 b1 => cases ca with
            | red => exact absurd (bal_red_inv ha).1 (by simp)
            | black => rfl

/-! ### Preservation of the cached subtree maxima -/

theorem mOK_N {c : Color} {l : RBNode D} {k : Range} {v : D} {r : RBNode D} :
    mOK (N c l k v r) ↔ mOK l ∧ mOK r := by
  simp [N, mOK]

theorem mOK_setBlack {t : RBNode D} : mOK (setBlack t) ↔ mOK t := by
  cases t <;> simp [setBlack, mOK]

theorem mOK_setRed {t : RBNode D} : mOK (setRed t) ↔ mOK t := by
  cases t <;> simp [setRed, mOK]

theorem mOK_balance1 {l : RBNode D} {k : Range} {v : D} {r : RBNode D}
    (hl : mOK l) (hr : mOK r) : mOK (balance1 l k v r) := by
  unfold balance1
  split
  · obtain ⟨_, ⟨_, h1, h2⟩, h3⟩ := hl
    exact mOK_N.2 ⟨mOK_N.2 ⟨h1, h2⟩, mOK_N.2 ⟨h3, hr⟩⟩
  · obtain ⟨_, h1, _, h2, h3⟩ := hl
    exact mOK_N.2 ⟨mOK_N.2 ⟨h1, h2⟩, mOK_N.2 ⟨h3, hr⟩⟩
  · exact mOK_N.2 ⟨hl, hr⟩

theorem mOK_balance2 {l : RBNode D} {k : Range} {v : D} {r : RBNode D}
    (hl : mOK l) (hr : mOK r) : mOK (balance2 l k v r) := by
  unfold balance2
  split
  · obtain ⟨_, h1, _, h2, h3⟩ := hr
    exact mOK_N.2 ⟨mOK_N.2 ⟨hl, h1⟩, mOK_N.2 ⟨h2, h3⟩⟩
  · obtain ⟨_, ⟨_, h1, h2⟩, h3⟩ := hr
    exact mOK_N.2 ⟨mOK_N.2 ⟨hl, h1⟩, mOK_N.2 ⟨h2, h3⟩⟩
  · exact mOK_N.2 ⟨hl, hr⟩

theorem mOK_balLeftB {l : RBNode D} {k : Range} {v : D} {r : RBNode D}
    (hl : mOK l) (hr : mOK r) : mOK (balLeftB l k v r) := by
  unfold balLeftB
  split
  · obtain ⟨_, h1, h2⟩ := hr
    exact mOK_balance2 hl (mOK_N.2 ⟨h1, h2⟩)
  · obtain ⟨_, ⟨_, h1, h2⟩, h3⟩ := hr
    exact mOK_N.2 ⟨mOK_N.2 ⟨hl, h1⟩, mOK_balance2 h2 (mOK_setRed.2 h3)⟩
  · exact mOK_N.2 ⟨hl, hr⟩

theorem mOK_balLeft {l : RBNode D} {k : Range} {v : D} {r : RBNode D}
    (hl : mOK l) (hr : mOK r) : mOK (balLeft l k v r) := by
  unfold balLeft
  split
  · obtain ⟨_, h1, h2⟩ := hl
    exact mOK_N.2 ⟨mOK_N.2 ⟨h1, h2⟩, hr⟩
  · exact mOK_balLeftB hl hr
  · exact mOK_balLeftB hl hr

theorem mOK_balRightB {l : RBNode D} {k : Range} {v : D} {r : RBNode D}
    (hl : mOK l) (hr : mOK r) : mOK (balRightB l k v r) := by
  unfold balRightB
  split
  · obtain ⟨_, h1, h2⟩ := hl
    exact mOK_balance1 (mOK_N.2 ⟨h1, h2⟩) hr
  · obtain ⟨_, h1, _, h2, h3⟩ := hl
    exact mOK_N.2 ⟨mOK_balance1 (mOK_setRed.2 h1) h2, mOK_N.2 ⟨h3, hr⟩⟩
  · exact mOK_N.2 ⟨hl, hr⟩

theorem mOK_balRight {l : RBNode D} {k : Range} {v : D} {r : RBNode D}
    (hl : mOK l) (hr : mOK r) : mOK (balRight l k v r) := by
  unfold balRight
  split
  · obtain ⟨_, h1, h2⟩ := hr
    exact mOK_N.2 ⟨hl, mOK_N.2 ⟨h1, h2⟩⟩
  · exact mOK_balRightB hl hr
  · exact mOK_balRightB hl hr

theorem mOK_ins (x : Range) (v : D) {t : RBNode D} (h : mOK t) : mOK (ins x v t) := by
  induction t with
  | nil => exact mOK_N.2 ⟨trivial, trivial⟩
  | node c a y vy m b ihl ihr =>
    obtain ⟨_, ha, hb⟩ := h
    cases c <;> rw [ins] <;> split_ifs
    · exact mOK_N.2 ⟨ihl ha, hb⟩
    · exact mOK_N.2 ⟨ha, ihr hb⟩
    · exact mOK_N.2 ⟨ha, hb⟩
    · exact mOK_balance1 (ihl ha) hb
    · exact mOK_balance2 ha (ihr hb)
    · exact mOK_N.2 ⟨ha, hb⟩

theorem mOK_insert (x : Range) (v : D) {t : RBNode D} (h : mOK t) :
    mOK (insert x v t) := by
  rw [insert]
  exact mOK_setBlack.2 (mOK_ins x v h)

theorem mOK_dfixL (co : Color) {a' : RBNode D} {y : Range} {vy : D} {b : RBNode D}
    (ha : mOK a') (hb : mOK b) : mOK (dfixL co a' y vy b) := by
  cases co
  · exact mOK_N.2 ⟨ha, hb⟩
  · exact mOK_balLeft ha hb

theorem mOK_dfixR (co : Color) {a : RBNode D} {y : Range} {vy : D} {b' : RBNode D}
    (ha : mOK a) (hb : mOK b') : mOK (dfixR co a y vy b') := by
  cases co
  · exact mOK_N.2 ⟨ha, hb⟩
  · exact mOK_balRight ha hb

theorem mOK_split_min {t t' : RBNode D} {kv : Range × D} (h : mOK t)
    (hsm : split_min t = some (kv, t')) : mOK t' := by
  induction t generalizing t' kv with
  | nil => simp [split_min] at hsm
  | node c a y vy m b ihl ihr =>
    obtain ⟨_, ha, hb⟩ := h
    cases a with
    | nil =>
      rw [split_min] at hsm
      cases hsm
      exact hb
    | node ca al ak av am ar =>
      rw [split_min] at hsm
      rcases hsm2 : split_min (node ca al ak av am ar) with _ | ⟨kv1, a1⟩
      · rw [hsm2] at hsm; exact absurd hsm (by simp)
      · rw [hsm2] at hsm
        have h1 := ihl ha hsm2
        cases ca
        · cases hsm
          exact mOK_N.2 ⟨h1, hb⟩
        · cases hsm
          exact mOK_balLeft h1 hb

theorem mOK_delRoot {a b : RBNode D} (ha : mOK a) (hb : mOK b) :
    mOK (delRoot a b) := by
  cases b with
  | nil => cases a with
    | nil => exact ha
    | node x1 x2 x3 x4 x5 x6 => exact ha
  | node cb bl bk bv bm br =>
    cases a with
    | nil => exact hb
    | node ca al ak av am ar =>
      rcases hsm : split_min (node cb bl bk bv bm br) with _ | ⟨⟨ky, kv⟩, b1⟩
      · have h2 := split_min_isSome cb bl bk bv bm br
        rw [hsm] at h2; simp at h2
      · rw [delRoot, hsm]
        exact mOK_dfixR cb ha (mOK_split_min hb hsm)

theorem mOK_del (x : Range) {t : RBNode D} (h : mOK t) : mOK (del x t) := by
  induction t with
  | nil => exact trivial
  | node c a y vy m b ihl ihr =>
    obtain ⟨_, ha, hb⟩ := h
    rw [del]
    split_ifs
    · exact mOK_dfixL _ (ihl ha) hb
    · exact mOK_dfixR _ ha (ihr hb)
    · exact mOK_delRoot ha hb

theorem mOK_delete (x : Range) {t : RBNode D} (h : mOK t) : mOK (delete x t) := by
  rw [delete]
  split
  · exact mOK_setBlack.2 (mOK_del x h)
  · exact h

theorem high_le_smax {t : RBNode D} (h : mOK t) :
    ∀ p ∈ inorder t, p.1.high ≤ smax t := by
  induction t with
  | nil => intro p hp; simp [inorder] at hp
  | node c l k v m r ihl ihr =>
    obtain ⟨e, hl, hr⟩ := h
    intro p hp
    rw [inorder] at hp
    rcases List.mem_append.1 hp with hp | hp
    · exact le_trans (ihl hl p hp)
        (by rw [smax, e]; exact le_trans (le_max_left _ _) (le_max_right _ _))
    · rcases List.mem_cons.1 hp with e2 | hp
      · rw [e2, smax, e]; exact le_max_left _ _
      · exact le_trans (ihr hr p hp)
          (by rw [smax, e]; exact le_trans (le_max_right _ _) (le_max_right _ _))

/-! ### The validator agrees with the three invariants -/

theorem lbB_iff {lo : Option Range} {k : Range} : lbB lo k = true ↔ okLB lo k := by
  cases lo <;> simp [lbB, okLB]

theorem ubB_iff {hi : Option Range} {k : Range} : ubB hi k = true ↔ okUB hi k := by
  cases hi <;> simp [ubB, okUB]

theorem okUB_trans {hi : Option Range} {a b : Range} (h1 : rlt a b) (h2 : okUB hi b) :
    okUB hi a := by
  cases hi with
  | none => trivial
  | some c => exact rlt_trans h1 h2

theorem okLB_trans {lo : Option Range} {a b : Range} (h1 : okLB lo a) (h2 : rlt a b) :
    okLB lo b := by
  cases lo with
  | none => trivial
  | some c => exact rlt_trans h1 h2

theorem bstB_iff {t : RBNode D} : ∀ {lo hi : Option Range}, bstB t lo hi = true ↔
    sortedP (inorder t) ∧ ∀ p ∈ inorder t, okLB lo p.1 ∧ okUB hi p.1 := by
  induction t with
  | nil => intro lo hi; simp [bstB, sortedP, inorder]
  | node c l k v m r ihl ihr =>
    intro lo hi
    rw [bstB]
    simp only [Bool.and_eq_true, lbB_iff, ubB_iff, ihl, ihr, inorder]
    constructor
    · rintro ⟨⟨⟨hk1, hk2⟩, hsl, hbl⟩, hsr, hbr⟩
      constructor
      · rw [sortedP, List.pairwise_append]
        refine ⟨hsl, ?_, ?_⟩
        · rw [List.pairwise_cons]
          exact ⟨fun q hq => (hbr q hq).1, hsr⟩
        · intro p hp q hq
          rcases List.mem_cons.1 hq with e | hq
          · rw [e]; exact (hbl p hp).2
          · exact rlt_trans (hbl p hp).2 (hbr q hq).1
      · intro p hp
        rcases List.mem_append.1 hp with hp | hp
        · exact ⟨(hbl p hp).1, okUB_trans (hbl p hp).2 hk2⟩
        · rcases List.mem_cons.1 hp with e | hp
          · rw [e]; exact ⟨hk1, hk2⟩
          · exact ⟨okLB_trans hk1 (hbr p hp).1, (hbr p hp).2⟩
    · rintro ⟨hs, hbd⟩
      rw [sortedP, List.pairwise_append] at hs
      obtain ⟨hsl, hsr2, hcross⟩ := hs
      rw [List.pairwise_cons] at hsr2
      obtain ⟨hkr, hsr⟩ := hsr2
      have hkm := hbd (k, v) (List.mem_append_right _ (List.mem_cons_self _ _))
      refine ⟨⟨⟨hkm.1, hkm.2⟩, hsl, ?_⟩, hsr, ?_⟩
      · intro p hp
        exact ⟨(hbd p (List.mem_append_left _ hp)).1,
          hcross p hp (k, v) (List.mem_cons_self _ _)⟩
      · intro q hq
        exact ⟨hkr q hq,
          (hbd q (List.mem_append_right _ (List.mem_cons_of_mem _ hq))).2⟩

theorem mOKb_iff {t : RBNode D} : mOKb t = true ↔ mOK t := by
  induction t with
  | nil => simp [mOKb, mOK]
  | node c l k v m r ihl ihr => simp [mOKb, mOK, ihl, ihr, and_assoc]

theorem noRR_of_balanced {t : RBNode D} {c : Color} {n : Nat} (h : Balanced t c n) :
    noRR t = true := by
  induction h with
  | nil => rfl
  | red ha hb iha ihb =>
    simp [noRR, rootRed_of_black ha, rootRed_of_black hb, iha, ihb]
  | black ha hb iha ihb => simp [noRR, iha, ihb]

theorem bhOf_of_balanced {t : RBNode D} {c : Color} {n : Nat} (h : Balanced t c n) :
    bhOf t = some n := by
  induction h with
  | nil => rfl
  | red ha hb iha ihb => simp [bhOf, iha, ihb]
  | black ha hb iha ihb => simp [bhOf, iha, ihb]

theorem rootColor_black {t : RBNode D} (h : rootRed t = false) :
    rootColor t = black := by
  cases t with
  | nil => rfl
  | node c l k v m r =>
    cases c with
    | red => simp [rootRed] at h
    | black => rfl

theorem balanced_of_checks {t : RBNode D} : ∀ {n : Nat}, noRR t = true →
    bhOf t = some n → Balanced t (rootColor t) n := by
  induction t with
  | nil =>
    intro n h1 h2
    rw [bhOf] at h2
    cases h2
    exact .nil
  | node c l k v m r ihl ihr =>
    intro n h1 h2
    cases c with
    | red =>
      rw [noRR] at h1
      simp only [Bool.and_eq_true, Bool.not_eq_true'] at h1
      obtain ⟨⟨⟨h1a, h1b⟩, h1c⟩, h1d⟩ := h1
      rcases hbl : bhOf l with _ | nl <;> rcases hbr : bhOf r with _ | nr <;>
        simp only [bhOf, hbl, hbr] at h2
      · simp at h2
      · simp at h2
      · simp at h2
      · have bl := rootColor_black h1a ▸ ihl h1c hbl
        have br := rootColor_black h1b ▸ ihr h1d hbr
        by_cases e : nl = nr
        · rw [if_pos e] at h2
          subst e
          cases h2
          exact .red bl br
        · rw [if_neg e] at h2
          cases h2
    | black =>
      rw [noRR] at h1
      simp only [Bool.and_eq_true] at h1
      obtain ⟨h1c, h1d⟩ := h1
      rcases hbl : bhOf l with _ | nl <;> rcases hbr : bhOf r with _ | nr <;>
        simp only [bhOf, hbl, hbr] at h2
      · simp at h2
      · simp at h2
      · simp at h2
      · by_cases e : nl = nr
        · rw [if_pos e] at h2
          subst e
          cases h2
          exact .black (ihl h1c hbl) (ihr h1d hbr)
        · rw [if_neg e] at h2
          cases h2

theorem is_interval_tree_iff {t : RBNode D} :
    is_interval_tree t = true ↔
      sortedP (inorder t) ∧ mOK t ∧ ∃ n, Balanced t black n := by
  rw [is_interval_tree]
  simp only [Bool.and_eq_true, Bool.not_eq_true', Option.isSome_iff_exists]
  constructor
  · rintro ⟨⟨⟨⟨hbst, hnoRR⟩, hroot⟩, n, hbh⟩, hmokb⟩
    have hb := balanced_of_checks hnoRR hbh
    rw [rootColor_black hroot] at hb
    exact ⟨(bstB_iff.1 hbst).1, mOKb_iff.1 hmokb, n, hb⟩
  · rintro ⟨hs, hm, n, hb⟩
    exact ⟨⟨⟨⟨bstB_iff.2 ⟨hs, fun p hp => ⟨trivial, trivial⟩⟩,
      noRR_of_balanced hb⟩, rootRed_of_black hb⟩, ⟨n, bhOf_of_balanced hb⟩⟩,
      mOKb_iff.2 hm⟩

/-! ### The invariants are preserved by every mutation -/

theorem sortedP_insert (x : Range) (v : D) {t : RBNode D}
    (h : sortedP (inorder t)) : sortedP (inorder (insert x v t)) := by
  rw [inorder_insert x v h]
  exact sortedP_insList h

theorem sortedP_delete (x : Range) {t : RBNode D}
    (h : sortedP (inorder t)) : sortedP (inorder (delete x t)) := by
  rw [inorder_delete x h]
  split
  · exact sortedP_delList h
  · exact h

theorem insert_wf (x : Range) (v : D) {t : RBNode D}
    (h : is_interval_tree t = true) : is_interval_tree (insert x v t) = true := by
  obtain ⟨hs, hm, n, hb⟩ := is_interval_tree_iff.1 h
  exact is_interval_tree_iff.2
    ⟨sortedP_insert x v hs, mOK_insert x v hm, insert_balanced x v hb⟩

theorem delete_wf (x : Range) {t : RBNode D}
    (h : is_interval_tree t = true) : is_interval_tree (delete x t) = true := by
  obtain ⟨hs, hm, n, hb⟩ := is_interval_tree_iff.1 h
  exact is_interval_tree_iff.2
    ⟨sortedP_delete x hs, mOK_delete x hm, delete_balanced x hb⟩

/-! ### Search after insert and delete -/

theorem search_insert_self {t : RBNode D} (hs : sortedP (inorder t)) (x : Range) (v : D) :
    search x (insert x v t) = some v := by
  rw [search_eq_lookup x (sortedP_insert x v hs), inorder_insert x v hs]
  exact lookupList_insList x v (inorder t)

theorem search_delete_self {t : RBNode D} (hs : sortedP (inorder t)) (x : Range) :
    search x (delete x t) = none := by
  by_cases hc : (search x t).isSome = true
  · rw [search_eq_lookup x (sortedP_delete x hs), inorder_delete x hs, if_pos hc]
    exact lookupList_delList hs
  · rw [delete, if_neg hc]
    rcases hv : search x t with _ | v
    · rfl
    · rw [hv] at hc; simp at hc

theorem search_absent {t : RBNode D} (hs : sortedP (inorder t)) (x : Range)
    (habs : ∀ p ∈ inorder t, p.1 ≠ x) : search x t = none := by
  rw [search_eq_lookup x hs]
  exact lookupList_notin habs

/-! ### Min and max -/

theorem inorder_ne_nil (c : Color) (l : RBNode D) (k : Range) (v : D) (m : Nat)
    (r : RBNode D) : inorder (node c l k v m r) ≠ [] := by
  rw [inorder]
  simp

theorem min_pair_eq_head (t : RBNode D) : min_pair t = (inorder t).head? := by
  induction t with
  | nil => rfl
  | node c a y vy m b ihl ihr =>
    cases a with
    | nil => rw [min_pair, inorder, inorder]; rfl
    | node ca al ak av am ar =>
      rcases he : inorder (node ca al ak av am ar) with _ | ⟨p, rest⟩
      · exact absurd he (inorder_ne_nil _ _ _ _ _ _)
      · rw [min_pair, ihl, he, inorder, he]
        simp

theorem getLast?_append_right {α : Type w} {l₁ l₂ : List α} (h : l₂ ≠ []) :
    (l₁ ++ l₂).getLast? = l₂.getLast? := by
  induction l₁ with
  | nil => rfl
  | cons a rest ih =>
    rw [List.cons_append, ← ih]
    rcases e : rest ++ l₂ with _ | ⟨b, rest2⟩
    · exfalso
      rcases l₂ with _ | ⟨x, xs⟩
      · exact h rfl
      · simp at e
    · rw [List.getLast?_cons_cons]

theorem max_pair_eq_getLast (t : RBNode D) : max_pair t = (inorder t).getLast? := by
  induction t with
  | nil => rfl
  | node c a y vy m b ihl ihr =>
    cases b with
    | nil =>
      rw [max_pair, inorder]
      rw [show inorder (nil : RBNode D) = [] from rfl, List.getLast?_concat]
    | node cb bl bk bv bm br =>
      rcases he : inorder (node cb bl bk bv bm br) with _ | ⟨p, rest⟩
      · exact absurd he (inorder_ne_nil _ _ _ _ _ _)
      · rw [max_pair, ihr, he, inorder, he,
          getLast?_append_right (by simp), List.getLast?_cons_cons]

theorem head_min {l : List (Range × D)} (hs : sortedP l) {p : Range × D}
    (he : l.head? = some p) : p ∈ l ∧ ∀ q ∈ l, rle p.1 q.1 := by
  cases l with
  | nil => simp at he
  | cons a rest =>
    rw [List.head?_cons] at he
    cases he
    rw [sortedP, List.pairwise_cons] at hs
    refine ⟨List.mem_cons_self _ _, ?_⟩
    intro q hq
    rcases List.mem_cons.1 hq with e | hq
    · exact Or.inr (by rw [e])
    · exact Or.inl (hs.1 q hq)

theorem getLast_max {l : List (Range × D)} (hs : sortedP l) : ∀ {p : Range × D},
    l.getLast? = some p → p ∈ l ∧ ∀ q ∈ l, rle q.1 p.1 := by
  induction l with
  | nil => intro p he; simp at he
  | cons a rest ih =>
    intro p he
    rw [sortedP, List.pairwise_cons] at hs
    obtain ⟨ha, hrest⟩ := hs
    cases rest with
    | nil =>
      simp at he
      cases he
      exact ⟨List.mem_cons_self _ _, by intro q hq; simp at hq; exact Or.inr (by rw [hq])⟩
    | cons b rest2 =>
      rw [List.getLast?_cons_cons] at he
      obtain ⟨hmem, hmax⟩ := ih hrest he
      refine ⟨List.mem_cons_of_mem _ hmem, ?_⟩
      intro q hq
      rcases List.mem_cons.1 hq with e | hq
      · rw [e]; exact Or.inl (ha p hmem)
      · exact hmax q hq

/-! ### Inserting an existing key only overwrites the payload -/

theorem smax_setValue (x : Range) (v : D) (t : RBNode D) :
    smax (setValue x v t) = smax t := by
  cases t with
  | nil => rfl
  | node c a y vy m b =>
    rw [setValue]
    split_ifs <;> rfl

theorem setValue_balanced {t : RBNode D} {c : Color} {n : Nat} (h : Balanced t c n)
    (x : Range) (v : D) : Balanced (setValue x v t) c n := by
  induction h with
  | nil => exact .nil
  | red ha hb iha ihb =>
    rw [setValue]
    split_ifs
    · exact .red iha hb
    · exact .red ha ihb
    · exact .red ha hb
  | black ha hb iha ihb =>
    rw [setValue]
    split_ifs
    · exact .black iha hb
    · exact .black ha ihb
    · exact .black ha hb

theorem ins_eq_setValue {t : RBNode D} (x : Range) (v : D) : ∀ {c : Color} {n : Nat},
    Balanced t c n → mOK t → (search x t).isSome = true →
    ins x v t = setValue x v t := by
  induction t with
  | nil =>
    intro c n hb hm hmem
    rw [search] at hmem
    simp at hmem
  | node c0 a y vy m b ihl ihr =>
    intro c n hb hm hmem
    obtain ⟨hmE, hma, hmb⟩ := hm
    rw [search] at hmem
    cases c0 with
    | red =>
      obtain ⟨_, ha, hbb⟩ := bal_red_inv hb
      rw [ins, setValue]
      split_ifs with h1 h2
      · rw [ihl ha hma (by rwa [if_pos h1] at hmem), N, smax_setValue, ← hmE]
      · rw [ihr hbb hmb (by rwa [if_neg h1, if_pos h2] at hmem), N, smax_setValue, ← hmE]
      · rw [N, ← hmE]
    | black =>
      obtain ⟨_, ca, cb, n', e, ha, hbb⟩ := bal_black_inv hb
      rw [ins, setValue]
      split_ifs with h1 h2
      · rw [ihl ha hma (by rwa [if_pos h1] at hmem),
          balance1_eq (setValue_balanced ha x v), N, smax_setValue, ← hmE]
      · rw [ihr hbb hmb (by rwa [if_neg h1, if_pos h2] at hmem),
          balance2_eq (setValue_balanced hbb x v), N, smax_setValue, ← hmE]
      · rw [N, ← hmE]

theorem rootRed_setValue (x : Range) (v : D) (t : RBNode D) :
    rootRed (setValue x v t) = rootRed t := by
  cases t with
  | nil => rfl
  | node c a y vy m b =>
    rw [setValue]
    split_ifs <;> cases c <;> rfl

theorem setBlack_of_black {t : RBNode D} (h : rootRed t = false) : setBlack t = t := by
  cases t with
  | nil => rfl
  | node c a y vy m b =>
    cases c with
    | red => simp [rootRed] at h
    | black => rfl

theorem strip_setValue (x : Range) (v : D) (t : RBNode D) :
    strip (setValue x v t) = strip t := by
  induction t with
  | nil => rfl
  | node c a y vy m b ihl ihr =>
    rw [setValue]
    split_ifs <;> simp [strip, ihl, ihr]

theorem map_fst_setValue (x : Range) (v : D) (t : RBNode D) :
    (inorder (setValue x v t)).map Prod.fst = (inorder t).map Prod.fst := by
  induction t with
  | nil => rfl
  | node c a y vy m b ihl ihr =>
    rw [setValue]
    split_ifs <;> simp [inorder, ihl, ihr]

theorem insert_eq_setValue {t : RBNode D} {n : Nat} (hb : Balanced t black n)
    (hm : mOK t) (x : Range) (v : D) (hmem : (search x t).isSome = true) :
    insert x v t = setValue x v t := by
  rw [insert, ins_eq_setValue x v hb hm hmem,
    setBlack_of_black (by rw [rootRed_setValue]; exact rootRed_of_black hb)]

/-! ### The range iterator yields exactly the overlapping pairs -/

theorem rangePairs_eq_filter (lo hi : Nat) {t : RBNode D} (hs : sortedP (inorder t))
    (hm : mOK t) :
    rangePairs lo hi t = (inorder t).filter (fun p => decide (overlap p.1 lo hi)) := by
  induction t with
  | nil => rfl
  | node c l k v m r ihl ihr =>
    obtain ⟨hsl, hsr, hlk, hkr⟩ := sortedP_node_parts (inorder l) hs
    have hm2 := hm
    obtain ⟨hmE, hml, hmr⟩ := hm2
    rw [rangePairs]
    by_cases hp : m < lo
    · rw [if_pos hp]
      symm
      rw [List.filter_eq_nil_iff]
      intro p hp2
      have h2 := high_le_smax hm p hp2
      rw [smax] at h2
      simp only [decide_eq_true_eq, overlap]
      omega
    · rw [if_neg hp]
      have hright : (if hi < k.low then [] else rangePairs lo hi r)
          = (inorder r).filter (fun p => decide (overlap p.1 lo hi)) := by
        by_cases hr2 : hi < k.low
        · rw [if_pos hr2]
          symm
          rw [List.filter_eq_nil_iff]
          intro q hq
          have h3 := hkr q hq
          rw [rlt] at h3
          simp only [decide_eq_true_eq, overlap]
          omega
        · rw [if_neg hr2]
          exact ihr hsr hmr
      rw [inorder, List.filter_append, List.filter_cons, ihl hsl hml, hright]
      by_cases ho : overlap k lo hi
      · rw [if_pos ho, if_pos (by simpa using ho)]
        simp [List.append_assoc]
      · rw [if_neg ho, if_neg (by simpa using ho)]
        simp

/-! ### Height bound from the balance invariant -/

theorem height_le_of_balanced {t : RBNode D} {c : Color} {n : Nat}
    (h : Balanced t c n) :
    height t ≤ 2 * n + 1 ∧ (c = black → height t ≤ 2 * n) := by
  induction h with
  | nil => exact ⟨by simp [height], fun _ => by simp [height]⟩
  | red ha hb iha ihb =>
    have h1 := iha.2 rfl
    have h2 := ihb.2 rfl
    rw [height]
    have h3 := Nat.max_le.2 ⟨h1, h2⟩
    exact ⟨by omega, fun e => Color.noConfusion e⟩
  | black ha hb iha ihb =>
    have h1 := iha.1
    have h2 := ihb.1
    rw [height]
    have h3 := Nat.max_le.2 ⟨h1, h2⟩
    exact ⟨by omega, fun _ => by omega⟩

theorem size_ge_of_balanced {t : RBNode D} {c : Color} {n : Nat}
    (h : Balanced t c n) : 2 ^ n ≤ size t + 1 := by
  induction h with
  | nil => exact le_refl 1
  | red ha hb iha ihb => rw [size]; omega
  | @black a0 b0 ca cb k0 v0 m0 n0 ha hb iha ihb =>
    rw [size]
    have e : 2 ^ (n0 + 1) = 2 ^ n0 * 2 := pow_succ 2 n0
    omega

/-! ### The state-passing read-only operations return the tree unchanged -/

theorem searchS_snd (x : Range) (t : RBNode D) : (searchS x t).2 = t := by
  induction t with
  | nil => rfl
  | node c a y vy m b ihl ihr =>
    rw [searchS]
    split_ifs <;> simp [ihl, ihr]

theorem min_pairS_snd (t : RBNode D) : (min_pairS t).2 = t := by
  induction t with
  | nil => rfl
  | node c a y vy m b ihl ihr =>
    cases a with
    | nil => rfl
    | node ca al ak av am ar =>
      rw [min_pairS]
      simp [ihl]

theorem max_pairS_snd (t : RBNode D) : (max_pairS t).2 = t := by
  induction t with
  | nil => rfl
  | node c a y vy m b ihl ihr =>
    cases b with
    | nil => rfl
    | node cb bl bk bv bm br =>
      rw [max_pairS]
      simp [ihr]

end RBNode

/-! ## The claims -/

/-- Claim C1: for every sequence of insert and delete operations starting
from the empty container, after every single insert or delete the tree
simultaneously satisfies BST ordering, the red-black balance constraints and
`subtreeMax` correctness; equivalently, the pure validator
`is_interval_tree` returns true on the resulting tree.  (Quantifying over
all operation sequences covers every intermediate state, since each prefix
is itself a sequence.) -/
theorem c1_invariants_after_every_operation {D : Type u} (ops : List (Op D)) :
    (run ops).test_interval_tree = true := by
  have hstep : ∀ (t : IntervalTree D) (op : Op D),
      t.test_interval_tree = true → (step t op).test_interval_tree = true := by
    intro t op h
    cases op with
    | insert k v => exact RBNode.insert_wf k v h
    | delete k => exact RBNode.delete_wf k h
  have hfold : ∀ (l : List (Op D)) (t : IntervalTree D),
      t.test_interval_tree = true → (List.foldl step t l).test_interval_tree = true := by
    intro l
    induction l with
    | nil => intro t h; exact h
    | cons op rest ih => intro t h; exact ih (step t op) (hstep t op h)
  exact hfold ops IntervalTree.new rfl

/-- Claim C2: on a well-formed tree, `range lo hi` (the wrapper around the
range iterator) yields exactly the stored `(key, value)` pairs whose key
overlaps `[lo, hi]` under `a.low ≤ hi ∧ lo ≤ a.high`, in strictly ascending
key order, and `iter` yields the same sequence as
`range 0 0xffff_ffff_ffff_ffff` (the maximum representable u64). -/
theorem c2_range_iterator {D : Type u} (t : IntervalTree D) (lo hi : Nat)
    (h : t.test_interval_tree = true) :
    t.range lo hi
        = (RBNode.inorder t.root).filter (fun p => decide (overlap p.1 lo hi)) ∧
      sortedP (t.range lo hi) ∧
      t.iter = t.range 0 0xffffffffffffffff := by
  obtain ⟨hs, hm, _⟩ := RBNode.is_interval_tree_iff.1 h
  have e : t.range lo hi
      = (RBNode.inorder t.root).filter (fun p => decide (overlap p.1 lo hi)) :=
    RBNode.rangePairs_eq_filter lo hi hs hm
  refine ⟨e, ?_, rfl⟩
  rw [show t.range lo hi = RBNode.rangePairs lo hi t.root from rfl,
    RBNode.rangePairs_eq_filter lo hi hs hm]
  exact List.Pairwise.sublist (List.filter_sublist _) hs

/-- Witness for C2 at a concrete two-element tree and query `[2, 6]`. -/
theorem c2_range_iterator_witness :
    (((IntervalTree.new : IntervalTree Nat).insert ⟨1, 3⟩ 10).insert ⟨5, 9⟩ 20).range 2 6
        = (RBNode.inorder (((IntervalTree.new : IntervalTree Nat).insert ⟨1, 3⟩ 10).insert
            ⟨5, 9⟩ 20).root).filter (fun p => decide (overlap p.1 2 6)) ∧
      sortedP ((((IntervalTree.new : IntervalTree Nat).insert ⟨1, 3⟩ 10).insert
        ⟨5, 9⟩ 20).range 2 6) ∧
      (((IntervalTree.new : IntervalTree Nat).insert ⟨1, 3⟩ 10).insert ⟨5, 9⟩ 20).iter
        = (((IntervalTree.new : IntervalTree Nat).insert ⟨1, 3⟩ 10).insert
            ⟨5, 9⟩ 20).range 0 0xffffffffffffffff :=
  c2_range_iterator _ 2 6 (by rfl)

/-- Claim C3: on a well-formed tree, immediately after `insert k v` the
container satisfies `contains k = true` and `get k` returns `v`. -/
theorem c3_insert_contains_get {D : Type u} (t : IntervalTree D) (k : Range) (v : D)
    (h : t.test_interval_tree = true) :
    (t.insert k v).contains k = true ∧ (t.insert k v).get k = some v := by
  obtain ⟨hs, _, _⟩ := RBNode.is_interval_tree_iff.1 h
  have hg : (t.insert k v).get k = some v := RBNode.search_insert_self hs k v
  refine ⟨?_, hg⟩
  rw [IntervalTree.contains, hg]
  rfl

/-- Witness for C3 at a concrete tree and key. -/
theorem c3_insert_contains_get_witness :
    ((((IntervalTree.new : IntervalTree Nat).insert ⟨5, 9⟩ 1).insert ⟨2, 3⟩ 7).contains
        ⟨2, 3⟩) = true ∧
      (((IntervalTree.new : IntervalTree Nat).insert ⟨5, 9⟩ 1).insert ⟨2, 3⟩ 7).get ⟨2, 3⟩
        = some 7 :=
  c3_insert_contains_get _ ⟨2, 3⟩ 7 (by rfl)

/-- Claim C4: on a well-formed tree, `delete k` on an absent key leaves the
container unchanged (a no-op); on a present key it removes that key, so that
afterwards `contains k` is false. -/
theorem c4_delete_semantics {D : Type u} (t : IntervalTree D) (k : Range)
    (h : t.test_interval_tree = true) :
    (t.contains k = false → t.delete k = t) ∧
    (t.contains k = true → (t.delete k).contains k = false) := by
  obtain ⟨hs, _, _⟩ := RBNode.is_interval_tree_iff.1 h
  constructor
  · intro hc
    have hc2 : (RBNode.search k t.root).isSome = false := hc
    have e : RBNode.delete k t.root = t.root := by
      rw [RBNode.delete, if_neg (by simp [hc2])]
    show (⟨RBNode.delete k t.root⟩ : IntervalTree D) = t
    rw [e]
  · intro hc
    show (RBNode.search k (RBNode.delete k t.root)).isSome = false
    rw [RBNode.search_delete_self hs k]
    rfl

/-- Witness for C4: deleting an absent key is a no-op on a concrete tree,
and deleting a present key makes `contains` false. -/
theorem c4_delete_semantics_witness :
    ((IntervalTree.new : IntervalTree Nat).insert ⟨1, 2⟩ 5).delete ⟨9, 9⟩
        = (IntervalTree.new : IntervalTree Nat).insert ⟨1, 2⟩ 5 ∧
      ((((IntervalTree.new : IntervalTree Nat).insert ⟨1, 2⟩ 5).delete ⟨1, 2⟩).contains
        ⟨1, 2⟩) = false :=
  ⟨(c4_delete_semantics _ ⟨9, 9⟩ (by rfl)).1 (by rfl),
   (c4_delete_semantics _ ⟨1, 2⟩ (by rfl)).2 (by rfl)⟩

/-- Claim C5: on a well-formed tree already containing key `k`,
`insert k v` overwrites the stored value in place without creating a
duplicate node: the node structure (colors, keys and cached maxima, i.e.
the payload-stripped tree) and the key sequence are unchanged, and the new
value is stored. -/
theorem c5_overwrite_in_place {D : Type u} (t : IntervalTree D) (k : Range) (v : D)
    (h : t.test_interval_tree = true) (hmem : t.contains k = true) :
    RBNode.strip (t.insert k v).root = RBNode.strip t.root ∧
    (RBNode.inorder (t.insert k v).root).map Prod.fst
      = (RBNode.inorder t.root).map Prod.fst ∧
    (t.insert k v).get k = some v := by
  obtain ⟨hs, hm, n, hb⟩ := RBNode.is_interval_tree_iff.1 h
  have hmem2 : (RBNode.search k t.root).isSome = true := hmem
  have e : RBNode.insert k v t.root = RBNode.setValue k v t.root :=
    RBNode.insert_eq_setValue hb hm k v hmem2
  refine ⟨?_, ?_, RBNode.search_insert_self hs k v⟩
  · show RBNode.strip (RBNode.insert k v t.root) = RBNode.strip t.root
    rw [e]
    exact RBNode.strip_setValue k v t.root
  · show (RBNode.inorder (RBNode.insert k v t.root)).map Prod.fst
        = (RBNode.inorder t.root).map Prod.fst
    rw [e]
    exact RBNode.map_fst_setValue k v t.root

/-- Witness for C5: overwriting the value of a present key on a concrete
tree keeps the structure and keys, and stores the new value. -/
theorem c5_overwrite_in_place_witness :
    RBNode.strip ((((IntervalTree.new : IntervalTree Nat).insert ⟨1, 2⟩ 5).insert
          ⟨4, 7⟩ 6).insert ⟨1, 2⟩ 42).root
        = RBNode.strip (((IntervalTree.new : IntervalTree Nat).insert ⟨1, 2⟩ 5).insert
          ⟨4, 7⟩ 6).root ∧
      (RBNode.inorder ((((IntervalTree.new : IntervalTree Nat).insert ⟨1, 2⟩ 5).insert
          ⟨4, 7⟩ 6).insert ⟨1, 2⟩ 42).root).map Prod.fst
        = (RBNode.inorder (((IntervalTree.new : IntervalTree Nat).insert ⟨1, 2⟩ 5).insert
          ⟨4, 7⟩ 6).root).map Prod.fst ∧
      ((((IntervalTree.new : IntervalTree Nat).insert ⟨1, 2⟩ 5).insert ⟨4, 7⟩ 6).insert
          ⟨1, 2⟩ 42).get ⟨1, 2⟩ = some 42 :=
  c5_overwrite_in_place _ ⟨1, 2⟩ 42 (by rfl) (by rfl)

/-- Claim C6: a tree satisfying the maintained red-black balance invariant
(as certified by the validator) with `n` stored entries has height at most
`2 · log2(n + 1)`.  `Nat.log 2` is the floor of the real `log2`, so this
bound implies the claimed real-valued one. -/
theorem c6_height_bound {D : Type u} (t : IntervalTree D)
    (h : t.test_interval_tree = true) :
    RBNode.height t.root ≤ 2 * Nat.log 2 (RBNode.size t.root + 1) := by
  obtain ⟨_, _, n, hb⟩ := RBNode.is_interval_tree_iff.1 h
  have h1 : RBNode.height t.root ≤ 2 * n := (RBNode.height_le_of_balanced hb).2 rfl
  have h2 : 2 ^ n ≤ RBNode.size t.root + 1 := RBNode.size_ge_of_balanced hb
  have h3 : n ≤ Nat.log 2 (RBNode.size t.root + 1) :=
    (Nat.pow_le_iff_le_log (by omega) (by omega)).1 h2
  omega

/-- Witness for C6 at a concrete three-element tree. -/
theorem c6_height_bound_witness :
    RBNode.height ((((IntervalTree.new : IntervalTree Nat).insert ⟨1, 1⟩ 0).insert
        ⟨2, 2⟩ 0).insert ⟨3, 3⟩ 0).root
      ≤ 2 * Nat.log 2 (RBNode.size ((((IntervalTree.new : IntervalTree Nat).insert
        ⟨1, 1⟩ 0).insert ⟨2, 2⟩ 0).insert ⟨3, 3⟩ 0).root + 1) :=
  c6_height_bound _ (by rfl)

/-- Claim C7: on a well-formed tree, `min` returns the smallest stored key
(with its value) and `max` the largest, according to the lexicographic
`(low, high)` order (the head and last of the sorted contents), and both
return `none` when the container is empty. -/
theorem c7_min_max {D : Type u} (t : IntervalTree D)
    (h : t.test_interval_tree = true) :
    t.min = (RBNode.inorder t.root).head? ∧
    t.max = (RBNode.inorder t.root).getLast? ∧
    (t.empty = true → t.min = none ∧ t.max = none) ∧
    (∀ p, t.min = some p → p ∈ RBNode.inorder t.root ∧
      ∀ q ∈ RBNode.inorder t.root, rle p.1 q.1) ∧
    (∀ p, t.max = some p → p ∈ RBNode.inorder t.root ∧
      ∀ q ∈ RBNode.inorder t.root, rle q.1 p.1) := by
  obtain ⟨hs, _, _⟩ := RBNode.is_interval_tree_iff.1 h
  have e1 : t.min = (RBNode.inorder t.root).head? := RBNode.min_pair_eq_head t.root
  have e2 : t.max = (RBNode.inorder t.root).getLast? := RBNode.max_pair_eq_getLast t.root
  refine ⟨e1, e2, ?_, ?_, ?_⟩
  · intro he
    rcases hr : t.root with _ | ⟨c, l, k, v, m, r⟩
    · constructor
      · rw [e1, hr]; rfl
      · rw [e2, hr]; rfl
    · rw [IntervalTree.empty, hr] at he
      simp at he
  · intro p hp
    exact RBNode.head_min hs (by rw [← e1]; exact hp)
  · intro p hp
    exact RBNode.getLast_max hs (by rw [← e2]; exact hp)

/-- Witness for C7: the head/last characterization of `min`/`max` on a
concrete two-element tree. -/
theorem c7_min_max_witness :
    (((IntervalTree.new : IntervalTree Nat).insert ⟨4, 6⟩ 1).insert ⟨1, 2⟩ 2).min
        = (RBNode.inorder (((IntervalTree.new : IntervalTree Nat).insert ⟨4, 6⟩ 1).insert
          ⟨1, 2⟩ 2).root).head? ∧
      (((IntervalTree.new : IntervalTree Nat).insert ⟨4, 6⟩ 1).insert ⟨1, 2⟩ 2).max
        = (RBNode.inorder (((IntervalTree.new : IntervalTree Nat).insert ⟨4, 6⟩ 1).insert
          ⟨1, 2⟩ 2).root).getLast? :=
  ⟨(c7_min_max _ (by rfl)).1, (c7_min_max _ (by rfl)).2.1⟩

/-- Claim C8: on a well-formed tree, an absent key is not an error: `get`
returns `none`, `contains` returns false, and `get_or` returns the supplied
default.  (All operations are total functions; no failure is possible.) -/
theorem c8_absent_key {D : Type u} (t : IntervalTree D) (k : Range) (d : D)
    (h : t.test_interval_tree = true)
    (habs : ∀ p ∈ RBNode.inorder t.root, p.1 ≠ k) :
    t.get k = none ∧ t.contains k = false ∧ t.get_or k d = d := by
  obtain ⟨hs, _, _⟩ := RBNode.is_interval_tree_iff.1 h
  have hg : t.get k = none := RBNode.search_absent hs k habs
  refine ⟨hg, ?_, ?_⟩
  · rw [IntervalTree.contains, hg]
    rfl
  · rw [IntervalTree.get_or, hg]
    rfl

/-- Witness for C8 at a concrete tree and an absent key. -/
theorem c8_absent_key_witness :
    ((IntervalTree.new : IntervalTree Nat).insert ⟨1, 2⟩ 5).get ⟨4, 4⟩ = none ∧
      ((IntervalTree.new : IntervalTree Nat).insert ⟨1, 2⟩ 5).contains ⟨4, 4⟩ = false ∧
      ((IntervalTree.new : IntervalTree Nat).insert ⟨1, 2⟩ 5).get_or ⟨4, 4⟩ 99 = 99 :=
  c8_absent_key _ ⟨4, 4⟩ 99 (by rfl) (by decide)

/-- Claim C9: constructing an interval key from endpoints with `low > high`
is rejected at construction time (fail fast), and accepted endpoints are
never normalized (swapped): a successful construction returns exactly the
given endpoints. -/
theorem c9_construction_fail_fast (lo hi : Nat) :
    (hi < lo → Range.make lo hi = none) ∧
    (∀ r, Range.make lo hi = some r → r.low = lo ∧ r.high = hi) := by
  constructor
  · intro h
    rw [Range.make, if_neg (by omega)]
  · intro r h
    rw [Range.make] at h
    split at h
    · cases h
      exact ⟨rfl, rfl⟩
    · cases h

/-- Witness for C9: `(5, 3)` is rejected and `(2, 7)` is stored verbatim. -/
theorem c9_construction_fail_fast_witness :
    Range.make 5 3 = none ∧
      ((⟨2, 7⟩ : Range).low = 2 ∧ (⟨2, 7⟩ : Range).high = 7) :=
  ⟨(c9_construction_fail_fast 5 3).1 (by omega),
   (c9_construction_fail_fast 2 7).2 ⟨2, 7⟩ (by rfl)⟩

/-- Claim C10: the read-only operations `get`, `get_or`, `contains`,
`empty`, `min`, `max` and the construction of the `iter`/`range` iterators
leave the container unchanged: in the state-passing rendering of the `&self`
methods, the tree returned alongside the result equals the input tree. -/
theorem c10_readonly_frame {D : Type u} (t : IntervalTree D) (k : Range) (d : D)
    (lo hi : Nat) :
    (t.getS k).2 = t ∧ (t.get_orS k d).2 = t ∧ (t.containsS k).2 = t ∧
    t.emptyS.2 = t ∧ t.minS.2 = t ∧ t.maxS.2 = t ∧ t.iterS.2 = t ∧
    (t.rangeS lo hi).2 = t := by
  have e1 : (t.getS k).2 = t := by
    show (⟨(RBNode.searchS k t.root).2⟩ : IntervalTree D) = t
    rw [RBNode.searchS_snd]
  have e5 : t.minS.2 = t := by
    show (⟨(RBNode.min_pairS t.root).2⟩ : IntervalTree D) = t
    rw [RBNode.min_pairS_snd]
  have e6 : t.maxS.2 = t := by
    show (⟨(RBNode.max_pairS t.root).2⟩ : IntervalTree D) = t
    rw [RBNode.max_pairS_snd]
  exact ⟨e1, e1, e1, rfl, e5, e6, rfl, rfl⟩

end ITree
